import Mathlib

/-!
Verification of the DeepCrawler crawl core against its specification.

The development shallowly embeds the TypeScript sources:
* src/crawler/normalizer.ts  (normalizeUrl, resolveUrl, isValidHttpUrl, getDomain)
* src/crawler/extractor.ts   (extractLinks, CrawlRules)
* src/crawler/queue.ts       (CrawlQueue)
* src/utils/timer.ts         (MetricsTracker)
* the crawl engine (BFS loop) and the JobManager.

The WHATWG URL platform primitive (the JS URL constructor) is modelled by an
executable parser over a structured URL record; the modelled fragment covers
scheme://host[:port][/path][?query][#fragment] URLs with ASCII components and
without percent-encoding or dot-segment normalization, which is the fragment
the specification's examples live in.  External capabilities (HTTP fetch,
HTML parse) are uninterpreted functions supplied to the engine, and the
wall clock is a logical tick counter.
-/

namespace DeepCrawler

/-- The JS URL object, as observed by the repository code: protocol keeps its
trailing colon, port is the serialized digit string (empty when absent or
default), searchParams are the decoded query entries in order, hash is the
fragment without the leading hash mark. -/
structure URLObj where
  protocol : String
  hostname : String
  port : String
  pathname : String
  searchParams : List (String × String)
  hash : String
deriving DecidableEq

/-- Characters the modelled parser accepts inside a scheme. -/
def schemeChar (c : Char) : Bool :=
  c.isAlpha || c.isDigit || c == '+' || c == '-' || c == '.'

/-- Characters that end neither the authority nor the whole URL. -/
def authChar (c : Char) : Bool :=
  c != '/' && c != '?' && c != '#'

/-- Characters the modelled parser accepts inside a hostname. -/
def hostChar (c : Char) : Bool :=
  authChar c && c != ':' && c != '@' && c != '\\' && c != ' '

/-- Characters the modelled parser accepts inside a path. -/
def pathChar (c : Char) : Bool :=
  c != '?' && c != '#' && c != '\\' && c != ' '

/-- Characters the modelled parser accepts inside a query string. -/
def queryChar (c : Char) : Bool :=
  c != '#' && c != '\\' && c != ' '

/-- Split a character list at every occurrence of the separator
(JS String.prototype.split semantics: empty pieces are kept). -/
def splitSep (sep : Char) : List Char → List (List Char)
  | [] => [[]]
  | c :: cs =>
    if c = sep then [] :: splitSep sep cs
    else
      match splitSep sep cs with
      | [] => [[c]]
      | p :: ps => (c :: p) :: ps

/-- Join pieces with a single separator character between them. -/
def joinSep (sep : Char) : List (List Char) → List Char
  | [] => []
  | [p] => p
  | p :: ps => p ++ sep :: joinSep sep ps

/-- Decode a raw query string into its entries, as URLSearchParams does:
split on ampersands, drop empty pieces, split each piece at its first
equals sign (a missing value decodes to the empty string). -/
def parseQuery (q : List Char) : List (String × String) :=
  (splitSep '&' q).filterMap fun piece =>
    if piece = [] then none
    else
      some (String.mk (piece.takeWhile (fun c => c != '=')),
            String.mk ((piece.dropWhile (fun c => c != '=')).drop 1))

/-- Parse the scheme part; the modelled fragment requires the
scheme://  shape used by http(s) URLs. -/
def parseScheme (cs : List Char) : Option (List Char × List Char) :=
  let s := cs.takeWhile (fun c => c != ':')
  match cs.dropWhile (fun c => c != ':') with
  | ':' :: '/' :: '/' :: r2 =>
    if s ≠ [] ∧ s.all schemeChar then some (s, r2) else none
  | _ => none

/-- Parse host and optional port out of the authority. -/
def parseAuth (cs : List Char) : Option (List Char × List Char × List Char) :=
  let auth := cs.takeWhile authChar
  let rest := cs.dropWhile authChar
  let host := auth.takeWhile (fun c => c != ':')
  if host = [] ∨ ¬ host.all hostChar then none
  else
    match auth.dropWhile (fun c => c != ':') with
    | [] => some (host, [], rest)
    | _ :: pcs =>
      if pcs.all Char.isDigit ∧ (pcs.length ≤ 1 ∨ pcs.head? ≠ some '0') then
        some (host, pcs, rest)
      else none

/-- Parse the path; an absent path reads as the root path, as the platform
does for special schemes. -/
def parsePath (cs : List Char) : Option (List Char × List Char) :=
  match cs with
  | '/' :: _ =>
    let p := cs.takeWhile pathChar
    let r := cs.dropWhile pathChar
    if r = [] ∨ r.head? = some '?' ∨ r.head? = some '#' then some (p, r) else none
  | [] => some (['/'], [])
  | '?' :: _ => some (['/'], cs)
  | '#' :: _ => some (['/'], cs)
  | _ => none

/-- Parse the query part, if present. -/
def parseQueryPart (cs : List Char) : Option (List (String × String) × List Char) :=
  match cs with
  | '?' :: rest =>
    let q := rest.takeWhile (fun c => c != '#')
    if q.all queryChar then some (parseQuery q, rest.dropWhile (fun c => c != '#'))
    else none
  | _ => some ([], cs)

/-- Parse the fragment, if present. -/
def parseHashPart (cs : List Char) : Option (List Char) :=
  match cs with
  | [] => some []
  | '#' :: rest => some rest
  | _ => none

/-- Was the port the scheme's default port (80 for http, 443 for https)? -/
def isDefaultPort (scheme : List Char) (pcs : List Char) : Bool :=
  (scheme = [ 'h', 't', 't', 'p'] && pcs = [ '8', '0']) ||
  (scheme = [ 'h', 't', 't', 'p', 's'] && pcs = [ '4', '4', '3'])

/-- Modelled platform URL parser (the JS URL constructor on an absolute
URL string): lowercases scheme and host, drops a default port, defaults
an absent path to the root path. -/
def parseChars (cs : List Char) : Option URLObj :=
  (parseScheme cs).bind fun sr =>
  (parseAuth sr.2).bind fun hpr =>
  (parsePath hpr.2.2).bind fun pr =>
  (parseQueryPart pr.2).bind fun qr =>
  (parseHashPart qr.2).map fun h =>
    let scheme := sr.1.map Char.toLower
    { protocol := String.mk (scheme ++ [ ':'])
      hostname := String.mk (hpr.1.map Char.toLower)
      port := if isDefaultPort scheme hpr.2.1 then String.mk [] else String.mk hpr.2.1
      pathname := String.mk pr.1
      searchParams := qr.1
      hash := String.mk h }

/-- The raw text of one serialized query entry, in the key=value form
URLSearchParams.toString uses. -/
def entryPiece (kv : String × String) : List Char :=
  kv.1.data ++ '=' :: kv.2.data

/-- Serialize the query entries back to a raw query string. -/
def serializeQuery (q : List (String × String)) : List Char :=
  match q with
  | [] => []
  | _ => '?' :: joinSep '&' (q.map entryPiece)

/-- Modelled platform URL serializer (URL.prototype.toString). -/
def serializeChars (u : URLObj) : List Char :=
  u.protocol.data ++ '/' :: '/' :: u.hostname.data ++
  (if u.port = String.mk [] then [] else ':' :: u.port.data) ++
  u.pathname.data ++ serializeQuery u.searchParams ++
  (if u.hash = String.mk [] then [] else '#' :: u.hash.data)

/-- Insert an entry into a key-sorted list of entries, before any entry of
equal key that came later in the original order (stability of the JS
Array.prototype.sort the source relies on). -/
def insEntry (x : String × String) : List (String × String) → List (String × String)
  | [] => [x]
  | y :: ys => if x.1 ≤ y.1 then x :: y :: ys else y :: insEntry x ys

/-- Stable sort of query entries by key; models
Array.prototype.sort((a, b) => a[0].localeCompare(b[0])), with the locale
collation modelled as code-unit order (they agree on the ASCII keys of the
modelled fragment). -/
def sortEntries : List (String × String) → List (String × String)
  | [] => []
  | x :: xs => insEntry x (sortEntries xs)

/-- The pure transformation normalizeUrl performs on the parsed URL object,
mirroring src/crawler/normalizer.ts line by line: lowercase hostname and
protocol, strip one trailing slash unless the path is exactly the root,
drop a default port, sort the query entries when a query is present, and
clear the fragment. -/
def normObj (u : URLObj) : URLObj :=
  let u1 := { u with hostname := String.mk (u.hostname.data.map Char.toLower)
                     protocol := String.mk (u.protocol.data.map Char.toLower) }
  let u2 :=
    if u1.pathname ≠ String.mk [ '/'] ∧ u1.pathname.data.getLast? = some '/' then
      { u1 with pathname := String.mk u1.pathname.data.dropLast }
    else u1
  let u3 :=
    if (u2.protocol = String.mk [ 'h', 't', 't', 'p', ':'] ∧ u2.port = String.mk [ '8', '0']) ∨
       (u2.protocol = String.mk [ 'h', 't', 't', 'p', 's', ':'] ∧ u2.port = String.mk [ '4', '4', '3']) then
      { u2 with port := String.mk [] }
    else u2
  let u4 :=
    if u3.searchParams ≠ [] then { u3 with searchParams := sortEntries u3.searchParams }
    else u3
  { u4 with hash := String.mk [] }

/-- normalizeUrl from src/crawler/normalizer.ts: parse, canonicalize,
serialize; throwing is modelled by the error branch of Except. -/
def normalizeUrl (url : String) : Except String String :=
  match parseChars url.data with
  | none => Except.error ( "Invalid URL: " ++ url)
  | some u => Except.ok (String.mk (serializeChars (normObj u)))

/-- Value of a digit string under the JS Number conversion (always decimal,
also with leading zeros). -/
def digitsToNat (cs : List Char) : Nat :=
  cs.foldl (fun acc c => 10 * acc + (c.toNat - '0'.toNat)) 0

/-- resolveUrl from src/crawler/normalizer.ts: platform resolution of the
relative URL against the base, then normalizeUrl of the serialization; any
failure inside is rethrown as a resolution error. -/
def resolvePlatform (base rel : List Char) : Option URLObj :=
  match parseChars rel with
  | some u => some u
  | none =>
    match parseChars base with
    | none => none
    | some b =>
      match rel with
      | [] => some { b with hash := String.mk [] }
      | '/' :: '/' :: _ => parseChars (b.protocol.data ++ rel)
      | '/' :: _ =>
        (parsePath rel).bind fun pr =>
        (parseQueryPart pr.2).bind fun qr =>
        (parseHashPart qr.2).map fun h =>
          { b with pathname := String.mk pr.1, searchParams := qr.1, hash := String.mk h }
      | '?' :: _ =>
        (parseQueryPart rel).bind fun qr =>
        (parseHashPart qr.2).map fun h =>
          { b with searchParams := qr.1, hash := String.mk h }
      | '#' :: r => some { b with hash := String.mk r }
      | _ =>
        let dir := b.pathname.data.take (b.pathname.data.length - (b.pathname.data.reverse.takeWhile (fun c => c != '/')).length)
        (parsePath (dir ++ rel)).bind fun pr =>
        (parseQueryPart pr.2).bind fun qr =>
        (parseHashPart qr.2).map fun h =>
          { b with pathname := String.mk pr.1, searchParams := qr.1, hash := String.mk h }

/-- resolveUrl of src/crawler/normalizer.ts. -/
def resolveUrl (baseUrl relativeUrl : String) : Except String String :=
  match (resolvePlatform baseUrl.data relativeUrl.data).bind
      (fun u => (normalizeUrl (String.mk (serializeChars u))).toOption) with
  | some s => Except.ok s
  | none => Except.error ( "Failed to resolve URL: " ++ relativeUrl ++ " against " ++ baseUrl)

/-- isValidHttpUrl of src/crawler/normalizer.ts. -/
def isValidHttpUrl (url : String) : Bool :=
  match parseChars url.data with
  | some u => u.protocol = String.mk [ 'h', 't', 't', 'p', ':'] ||
              u.protocol = String.mk [ 'h', 't', 't', 'p', 's', ':']
  | none => false

/-- getDomain of src/crawler/normalizer.ts. -/
def getDomain (url : String) : Except String String :=
  match parseChars url.data with
  | some u => Except.ok u.hostname
  | none => Except.error ( "Invalid URL: " ++ url)

/-- Crawl strategy of the job options. -/
inductive Strategy
  | domain
  | all
deriving DecidableEq

/-- CrawlOptions from src/types/crawl.ts, with the fields the core reads. -/
structure CrawlOptions where
  startUrl : String
  strategy : Strategy
  maxDepth : Nat
  maxPages : Nat
  concurrency : Nat
  timeout : Nat
deriving DecidableEq

/-- CrawlRules of src/crawler/rules.ts; the constructor computes the seed's
domain and thus fails on an unparsable seed URL. -/
structure CrawlRules where
  options : CrawlOptions
  baseDomain : String
deriving DecidableEq

/-- The CrawlRules constructor (new CrawlRules(options)). -/
def mkRules (options : CrawlOptions) : Except String CrawlRules :=
  (getDomain options.startUrl).map fun d => { options := options, baseDomain := d }

/-- CrawlRules.shouldCrawlDepth. -/
def shouldCrawlDepth (r : CrawlRules) (depth : Nat) : Bool :=
  depth < r.options.maxDepth

/-- CrawlRules.hasReachedPageLimit. -/
def hasReachedPageLimit (r : CrawlRules) (pagesScraped : Nat) : Bool :=
  r.options.maxPages ≤ pagesScraped

/-- CrawlRules.isAllowedDomain: the all strategy passes without looking at
the URL; otherwise the URL's domain must equal the seed's, and a parse
failure is caught and answered with false. -/
def isAllowedDomain (r : CrawlRules) (url : String) : Bool :=
  if r.options.strategy = Strategy.all then true
  else
    match parseChars url.data with
    | some u => u.hostname = r.baseDomain
    | none => false

/-- The dotted-quad recognizer of CrawlRules.isPrivateUrl: the source regex
accepts one to three digits per octet and converts each with Number. -/
def ipv4Octets (host : List Char) : Option (List Nat) :=
  let pieces := splitSep '.' host
  if pieces.length = 4 ∧ pieces.all fun p => p ≠ [] ∧ p.length ≤ 3 ∧ p.all Char.isDigit then
    some (pieces.map digitsToNat)
  else none

/-- CrawlRules.isPrivateUrl: exact localhost names, then the private IPv4
ranges on a dotted-quad hostname; a parse failure is caught and answered
with false. -/
def isPrivateUrl (_r : CrawlRules) (url : String) : Bool :=
  match parseChars url.data with
  | none => false
  | some u =>
    let hostname := String.mk (u.hostname.data.map Char.toLower)
    if hostname = "localhost" ∨ hostname = "127.0.0.1" ∨ hostname = "::1" then true
    else
      match ipv4Octets hostname.data with
      | some o =>
        (o.headD 0 = 10) ||
        (o.headD 0 = 172 && 16 ≤ (o.drop 1).headD 0 && (o.drop 1).headD 0 ≤ 31) ||
        (o.headD 0 = 192 && (o.drop 1).headD 0 = 168) ||
        (o.headD 0 = 169 && (o.drop 1).headD 0 = 254)
      | none => false

/-- CrawlRules.shouldCrawl: the early-return conjunction of the depth
check, the page-limit check, the domain check and the private-address
check. -/
def shouldCrawl (r : CrawlRules) (url : String) (depth pagesScraped : Nat) : Bool :=
  if ¬ shouldCrawlDepth r depth then false
  else if hasReachedPageLimit r pagesScraped then false
  else if ¬ isAllowedDomain r url then false
  else if isPrivateUrl r url then false
  else true

/-- Does the first character list start with the second one?  Models the
JS String.prototype.startsWith. -/
def startsWithChars : List Char → List Char → Bool
  | _, [] => true
  | [], _ :: _ => false
  | c :: cs, d :: ds => c = d && startsWithChars cs ds

/-- The JS String.prototype.trim, modelled on the whitespace characters
of the embedded fragment. -/
def strTrim (s : String) : String :=
  String.mk (((s.data.dropWhile Char.isWhitespace).reverse.dropWhile Char.isWhitespace).reverse)

/-- The JS String.prototype.startsWith on strings. -/
def strStartsWith (s pre : String) : Bool :=
  startsWithChars s.data pre.data

/-- extractLinks of src/crawler/extractor.ts: per href, skip blanks and
non-HTTP protocols, resolve against the base (failures drop the link),
keep http(s) URLs only, drop self references, and deduplicate preserving
insertion order (the JS Set). -/
def extractLinks (rawLinks : List String) (baseUrl : String) : List String :=
  rawLinks.foldl
    (fun acc href =>
      if (strTrim href).length = 0 then acc
      else
        let t := strTrim href
        if strStartsWith t "mailto:" || strStartsWith t "tel:" ||
           strStartsWith t "javascript:" || strStartsWith t "data:" ||
           strStartsWith t "#" then acc
        else
          match resolveUrl baseUrl t with
          | Except.error _ => acc
          | Except.ok absoluteUrl =>
            if ¬ isValidHttpUrl absoluteUrl then acc
            else
              match normalizeUrl baseUrl with
              | Except.error _ => acc
              | Except.ok normalizedBase =>
                if absoluteUrl = normalizedBase then acc
                else if absoluteUrl ∈ acc then acc
                else acc ++ [absoluteUrl])
    []

/-- QueueItem from src/types/crawl.ts. -/
structure QueueItem where
  url : String
  depth : Nat
  parentUrl : Option String
deriving DecidableEq

/-- The parse capability's output (title, text, raw links and metadata of a
page); HTML parsing itself is an external collaborator. -/
structure ParsedPage where
  title : String
  text : String
  links : List String
  meta : String
deriving DecidableEq

/-- PageData from src/types/crawl.ts. -/
structure PageData where
  url : String
  title : String
  text : String
  links : List String
  depth : Nat
  scrapedAt : Nat
  meta : String
deriving DecidableEq

/-- CrawlError from src/types/crawl.ts. -/
structure CrawlError where
  url : String
  error : String
  timestamp : Nat
deriving DecidableEq

/-- JobMetrics from src/types/crawl.ts. -/
structure JobMetrics where
  pagesScraped : Nat
  linksDiscovered : Nat
  errors : Nat
  currentDepth : Nat
deriving DecidableEq

/-- The MetricsTracker initial state. -/
def initialMetrics : JobMetrics :=
  { pagesScraped := 0, linksDiscovered := 0, errors := 0, currentDepth := 0 }

/-- MetricsTracker.incrementPagesScrapped (sic) of src/crawler/metrics.ts. -/
def incrementPagesScrapped (m : JobMetrics) : JobMetrics :=
  { m with pagesScraped := m.pagesScraped + 1 }

/-- MetricsTracker.addLinksDiscovered. -/
def addLinksDiscovered (m : JobMetrics) (count : Nat) : JobMetrics :=
  { m with linksDiscovered := m.linksDiscovered + count }

/-- MetricsTracker.incrementErrors. -/
def incrementErrors (m : JobMetrics) : JobMetrics :=
  { m with errors := m.errors + 1 }

/-- MetricsTracker.updateDepth: record the depth when it exceeds the
maximum seen so far. -/
def updateDepth (m : JobMetrics) (depth : Nat) : JobMetrics :=
  if m.currentDepth < depth then { m with currentDepth := depth } else m

/-- CrawlResult from src/types/crawl.ts. -/
structure CrawlResult where
  jobId : String
  pagesScraped : Nat
  linksDiscovered : Nat
  duration : Nat
  errors : List CrawlError
  pages : List PageData
deriving DecidableEq

/-- The engine's mutable state during one BFS loop: the CrawlQueue (a FIFO
list), the visited set (a JS Set, modelled as its insertion-ordered element
list), the metrics tracker, the accumulating pages and errors, and the
logical clock standing in for Date.now. -/
structure CrawlState where
  queue : List QueueItem
  visited : List String
  metrics : JobMetrics
  pages : List PageData
  errors : List CrawlError
  time : Nat
deriving DecidableEq

/-- The fetch capability (returns the HTML body) composed with the parse
capability, exactly as the try block of the engine runs them. -/
def fetchParse (fetchO : String → Except String String)
    (parseO : String → String → Except String ParsedPage)
    (url : String) : Except String ParsedPage :=
  (fetchO url).bind fun html => parseO html url

/-- The state update of a successful fetch+parse iteration of the BFS loop:
extract links, append the PageData, bump the pages and links metrics, and
enqueue the discovered links at depth+1 when depth+1 is below maxDepth. -/
def scrapeSuccess (opts : CrawlOptions) (current : QueueItem) (parsed : ParsedPage)
    (st : CrawlState) : CrawlState :=
  let links := extractLinks parsed.links current.url
  let pageData : PageData :=
    { url := current.url, title := parsed.title, text := parsed.text,
      links := links, depth := current.depth, scrapedAt := st.time, meta := parsed.meta }
  let st2 := { st with pages := st.pages ++ [pageData],
                       metrics := addLinksDiscovered (incrementPagesScrapped st.metrics) links.length,
                       time := st.time + 1 }
  if current.depth + 1 < opts.maxDepth then
    { st2 with queue := st2.queue ++ links.map fun l =>
        { url := l, depth := current.depth + 1, parentUrl := some current.url } }
  else st2

/-- The state update of a failed fetch+parse iteration: record the
CrawlError and bump the error metric; nothing else changes and in
particular the loop is not aborted. -/
def scrapeFailure (current : QueueItem) (msg : String) (st : CrawlState) : CrawlState :=
  { st with errors := st.errors ++ [{ url := current.url, error := msg, timestamp := st.time }],
            metrics := incrementErrors st.metrics,
            time := st.time + 1 }

/-- The body of the try/catch of one productive loop iteration: record
the depth metric, then fetch and parse, landing in the success or the
failure update. -/
def processCurrent (opts : CrawlOptions)
    (fetchO : String → Except String String)
    (parseO : String → String → Except String ParsedPage)
    (current : QueueItem) (st : CrawlState) : CrawlState :=
  let st3 := { st with metrics := updateDepth st.metrics current.depth }
  match fetchParse fetchO parseO current.url with
  | Except.ok parsed => scrapeSuccess opts current parsed st3
  | Except.error msg => scrapeFailure current msg st3

/-- The BFS loop of the crawl engine, one constructor of fuel per
iteration (the source loop always terminates, its iteration count being
bounded by the queue growth; fuel makes the recursion structural). -/
def crawlLoop (opts : CrawlOptions) (rules : CrawlRules)
    (fetchO : String → Except String String)
    (parseO : String → String → Except String ParsedPage) :
    Nat → CrawlState → Option CrawlState
  | 0, _ => none
  | fuel + 1, st =>
    match st.queue with
    | [] => some st
    | current :: rest =>
      let st1 := { st with queue := rest }
      if current.url ∈ st1.visited then
        crawlLoop opts rules fetchO parseO fuel st1
      else
        let st2 := { st1 with visited := st1.visited ++ [current.url] }
        if shouldCrawl rules current.url current.depth st2.metrics.pagesScraped then
          let st4 := processCurrent opts fetchO parseO current st2
          if hasReachedPageLimit rules st4.metrics.pagesScraped then some st4
          else crawlLoop opts rules fetchO parseO fuel st4
        else
          crawlLoop opts rules fetchO parseO fuel st2

/-- The CrawlResult the engine returns, assembled from the final state
(the jobId is filled in later by the job manager, the duration is the
elapsed clock). -/
def mkResult (st : CrawlState) : CrawlResult :=
  { jobId := String.mk [], pagesScraped := st.metrics.pagesScraped,
    linksDiscovered := st.metrics.linksDiscovered, duration := st.time,
    errors := st.errors, pages := st.pages }

/-- The crawl engine entry point: build the rules (whose constructor
throws on an unparsable seed), normalize and enqueue the seed at depth 0,
run the BFS loop, return the aggregate result.  The outer Except is the
engine throwing; the inner Option is fuel exhaustion of the model. -/
def crawl (fuel : Nat) (fetchO : String → Except String String)
    (parseO : String → String → Except String ParsedPage)
    (options : CrawlOptions) : Except String (Option (CrawlState × CrawlResult)) :=
  match mkRules options with
  | Except.error e => Except.error e
  | Except.ok rules =>
    match normalizeUrl options.startUrl with
    | Except.error e => Except.error e
    | Except.ok startUrl =>
      let st0 : CrawlState :=
        { queue := [{ url := startUrl, depth := 0, parentUrl := none }],
          visited := [], metrics := initialMetrics, pages := [], errors := [], time := 0 }
      match crawlLoop options rules fetchO parseO fuel st0 with
      | none => Except.ok none
      | some st => Except.ok (some (st, mkResult st))

/-- Job status from src/types/crawl.ts. -/
inductive JobStatus
  | pending
  | running
  | completed
  | failed
deriving DecidableEq

/-- Job from src/types/crawl.ts. -/
structure Job where
  id : String
  status : JobStatus
  startTime : Nat
  endTime : Option Nat
  options : CrawlOptions
  metrics : JobMetrics
  result : Option CrawlResult
  error : Option String
deriving DecidableEq

/-- JobManager.generateJobId: monotonic time plus a random suffix. -/
def generateJobId (now : Nat) (rand : String) : String :=
  "job_" ++ toString now ++ "_" ++ rand

/-- JobManager.createJob: the Job record stored before execution starts,
with status pending and zeroed metrics (the id is returned to the caller
without waiting for the crawl). -/
def createJob (options : CrawlOptions) (now : Nat) (rand : String) : Job :=
  { id := generateJobId now rand, status := JobStatus.pending, startTime := now,
    endTime := none, options := options, metrics := initialMetrics,
    result := none, error := none }

/-- JobManager.executeCrawl, as the sequence of Job records the background
execution writes to the store: first the running record, then exactly one
terminal record — completed with the result attached on a normal engine
return, failed with the error message attached when the engine threw.
Note the completed record stores currentDepth as the literal 0 from the
source (the comment there promises an update by the crawler that never
happens). -/
def executeCrawlStates (job : Job) (outcome : Except String CrawlResult)
    (tEnd : Nat) : List Job :=
  let runningJob := { job with status := JobStatus.running }
  match outcome with
  | Except.ok result =>
    [runningJob,
     { runningJob with
        status := JobStatus.completed,
        endTime := some tEnd,
        result := some { result with jobId := job.id },
        metrics := { pagesScraped := result.pagesScraped,
                     linksDiscovered := result.linksDiscovered,
                     errors := result.errors.length,
                     currentDepth := 0 } }]
  | Except.error e =>
    [runningJob,
     { runningJob with
        status := JobStatus.failed,
        endTime := some tEnd,
        error := some e }]

/-- The full sequence of stored Job records of one job, creation first. -/
def jobStates (options : CrawlOptions) (now : Nat) (rand : String)
    (outcome : Except String CrawlResult) (tEnd : Nat) : List Job :=
  createJob options now rand :: executeCrawlStates (createJob options now rand) outcome tEnd

/-- JobManager.getJobStatus: the externally exposed snapshot, the stored
record without the full result. -/
def getJobStatus (job : Job) : Job :=
  { job with result := none }

/-- Position of a status in the forward-only lifecycle. -/
def statusRank : JobStatus → Nat
  | JobStatus.pending => 0
  | JobStatus.running => 1
  | JobStatus.completed => 2
  | JobStatus.failed => 2

/-- Terminal statuses of the job lifecycle. -/
def isTerminal (s : JobStatus) : Bool :=
  s = JobStatus.completed || s = JobStatus.failed

/-- The demo options used to exercise the engine on a concrete web. -/
def demoOpts : CrawlOptions :=
  { startUrl := "http://a.com/", strategy := Strategy.domain, maxDepth := 2,
    maxPages := 10, concurrency := 1, timeout := 1000 }

/-- A concrete fetch capability: two pages succeed, everything else fails. -/
def demoFetch : String → Except String String := fun u =>
  if u = "http://a.com/" then Except.ok "A"
  else if u = "http://a.com/b" then Except.ok "B"
  else Except.error ( "Failed to fetch " ++ u ++ ": timeout")

/-- A concrete parse capability: the seed page links to a good page and a
broken one, every other page has no links. -/
def demoParse : String → String → Except String ParsedPage := fun html _ =>
  if html = "A" then
    Except.ok { title := "A", text := "ta", links := ["http://a.com/b", "http://a.com/err"], meta := "m" }
  else Except.ok { title := html, text := "t", links := [], meta := "m" }

/-- The final engine state of the demo crawl, written out. -/
def demoFinalState : CrawlState :=
  { queue := [],
    visited := ["http://a.com/", "http://a.com/b", "http://a.com/err"],
    metrics := { pagesScraped := 2, linksDiscovered := 2, errors := 1, currentDepth := 1 },
    pages :=
      [{ url := "http://a.com/", title := "A", text := "ta",
         links := ["http://a.com/b", "http://a.com/err"], depth := 0,
         scrapedAt := 0, meta := "m" },
       { url := "http://a.com/b", title := "B", text := "t", links := [],
         depth := 1, scrapedAt := 1, meta := "m" }],
    errors :=
      [{ url := "http://a.com/err",
         error := "Failed to fetch http://a.com/err: timeout", timestamp := 2 }],
    time := 3 }

/-- The CrawlResult of the demo crawl, written out. -/
def demoFinalResult : CrawlResult :=
  { jobId := String.mk [], pagesScraped := 2, linksDiscovered := 2, duration := 3,
    errors := demoFinalState.errors, pages := demoFinalState.pages }

/-- Reading back the scalar value of a character built from a valid code
point. -/
theorem char_toNat_ofNat (n : Nat) (h : n.isValidChar) : (Char.ofNat n).toNat = n := by
  rw [Char.ofNat, dif_pos h]
  rfl

/-- Lowercase is idempotent on characters (the core toLower touches only
the ASCII uppercase range and maps it outside itself). -/
theorem char_toLower_toLower (c : Char) : c.toLower.toLower = c.toLower := by
  show Char.toLower c.toLower = c.toLower
  unfold Char.toLower
  by_cases h : c.toNat ≥ 65 ∧ c.toNat ≤ 90
  · simp only [h, if_true, true_and]
    have hv : (c.toNat + 32).isValidChar := Or.inl (by omega)
    rw [if_neg]
    rw [char_toNat_ofNat _ hv]
    omega
  · simp only [h, if_false]

/-- Mapping to lowercase twice is mapping once. -/
theorem map_toLower_idem (l : List Char) :
    (l.map Char.toLower).map Char.toLower = l.map Char.toLower := by
  rw [List.map_map]
  exact List.map_congr_left fun c _ => char_toLower_toLower c

/-- The hostname a parse produces is already lowercase. -/
theorem parseChars_hostname_lower (cs : List Char) (u : URLObj)
    (h : parseChars cs = some u) :
    u.hostname.data.map Char.toLower = u.hostname.data := by
  unfold parseChars at h
  cases hs : parseScheme cs with
  | none => rw [hs] at h; simp at h
  | some sr =>
    rw [hs, Option.some_bind] at h
    cases ha : parseAuth sr.2 with
    | none => rw [ha] at h; simp at h
    | some hpr =>
      rw [ha, Option.some_bind] at h
      cases hp : parsePath hpr.2.2 with
      | none => rw [hp] at h; simp at h
      | some pr =>
        rw [hp, Option.some_bind] at h
        cases hq : parseQueryPart pr.2 with
        | none => rw [hq] at h; simp at h
        | some qr =>
          rw [hq, Option.some_bind] at h
          cases hh : parseHashPart qr.2 with
          | none => rw [hh] at h; simp at h
          | some hsh =>
            rw [hh] at h
            simp only [Option.map_some', Option.some.injEq] at h
            have h2 : u.hostname = String.mk (hpr.1.map Char.toLower) := by
              rw [← h]
            rw [h2]
            exact map_toLower_idem hpr.1

/-- The private IPv4 ranges of the amended C4 claim, read off a
dotted-quad hostname. -/
def inPrivateIPv4Range (host : String) : Bool :=
  match ipv4Octets host.data with
  | some o =>
    (o.headD 0 = 10) ||
    (o.headD 0 = 172 && 16 ≤ (o.drop 1).headD 0 && (o.drop 1).headD 0 ≤ 31) ||
    (o.headD 0 = 192 && (o.drop 1).headD 0 = 168) ||
    (o.headD 0 = 169 && (o.drop 1).headD 0 = 254)
  | none => false

/-- Written from the amended C4 claim: shouldCrawl is true exactly when
depth is below maxDepth, pagesScraped is below maxPages, and — when the
URL parses — the host passes the domain check (strategy all always does,
strategy domain requires the seed's host) and is neither one of the exact
localhost names (localhost, 127.0.0.1, ::1) nor inside 10.0.0.0/8,
172.16.0.0/12, 192.168.0.0/16 or 169.254.0.0/16; an unparsable URL fails
closed only under the domain strategy and passes under the all
strategy. -/
def shouldCrawlSpec (r : CrawlRules) (url : String) (depth pagesScraped : Nat) : Bool :=
  decide (depth < r.options.maxDepth) &&
  decide (pagesScraped < r.options.maxPages) &&
  (match parseChars url.data with
   | none => decide (r.options.strategy = Strategy.all)
   | some u =>
     (decide (r.options.strategy = Strategy.all) || decide (u.hostname = r.baseDomain)) &&
     ! (decide (u.hostname = "localhost") || decide (u.hostname = "127.0.0.1") ||
        decide (u.hostname = "::1") || inPrivateIPv4Range u.hostname))

/-- The early-return chain of shouldCrawl is the conjunction of its four
checks. -/
theorem shouldCrawl_conj (r : CrawlRules) (url : String) (depth pagesScraped : Nat) :
    shouldCrawl r url depth pagesScraped =
      (shouldCrawlDepth r depth && (! hasReachedPageLimit r pagesScraped) &&
       isAllowedDomain r url && (! isPrivateUrl r url)) := by
  unfold shouldCrawl
  cases h1 : shouldCrawlDepth r depth <;>
    cases h2 : hasReachedPageLimit r pagesScraped <;>
      cases h3 : isAllowedDomain r url <;>
        cases h4 : isPrivateUrl r url <;>
          simp [h1, h2, h3, h4]

/-- C4 (amended): the rules engine's shouldCrawl coincides with the
amended specification predicate on every input. -/
theorem shouldCrawl_eq_spec (r : CrawlRules) (url : String) (depth pagesScraped : Nat) :
    shouldCrawl r url depth pagesScraped = shouldCrawlSpec r url depth pagesScraped := by
  rw [shouldCrawl_conj]
  have hnum : (! hasReachedPageLimit r pagesScraped) =
      decide (pagesScraped < r.options.maxPages) := by
    unfold hasReachedPageLimit
    by_cases hp : r.options.maxPages ≤ pagesScraped
    · simp [hp, Nat.not_lt.mpr hp]
    · simp [hp, Nat.lt_of_not_le hp]
  rw [hnum]
  unfold shouldCrawlSpec shouldCrawlDepth isAllowedDomain isPrivateUrl
  cases hu : parseChars url.data with
  | none =>
    cases hstrat : r.options.strategy with
    | all => simp [hstrat]
    | domain => simp [hstrat]
  | some u =>
    have hlow2 : u.hostname.data.map Char.toLower = u.hostname.data :=
      parseChars_hostname_lower _ _ hu
    have hmk : String.mk u.hostname.data = u.hostname := rfl
    simp only [hlow2, hmk]
    by_cases hloc : u.hostname = "localhost" ∨ u.hostname = "127.0.0.1" ∨ u.hostname = "::1"
    · rw [if_pos hloc]
      rcases hloc with h | h | h <;>
        cases hstrat : r.options.strategy <;> simp [h, hstrat]
    · rw [if_neg hloc]
      push_neg at hloc
      obtain ⟨h1, h2, h3⟩ := hloc
      unfold inPrivateIPv4Range
      cases hstrat : r.options.strategy <;>
        cases ho : ipv4Octets u.hostname.data <;>
          simp [h1, h2, h3, hstrat, ho, Bool.and_assoc]

/-- Options with the unrestricted strategy, used to refute the C4 claim. -/
def c4opts : CrawlOptions :=
  { startUrl := "http://example.com/", strategy := Strategy.all, maxDepth := 2,
    maxPages := 10, concurrency := 1, timeout := 1000 }

/-- The rules object the CrawlRules constructor builds from those options. -/
def c4rules : CrawlRules :=
  { options := c4opts, baseDomain := "example.com" }

/-- C4 counterexample: with depth and page budget available and the all
strategy, shouldCrawl accepts the loopback address 127.0.0.2 (the claim
requires every 127.0.0.0/8 host to be blocked: the source compares the
hostname against the literal 127.0.0.1 only), and it also accepts an
unparsable URL (the claim requires shouldCrawl to be false for every
malformed URL regardless of strategy: under the all strategy both the
domain check and the private check pass without parsing). -/
theorem shouldCrawl_claim_false :
    (mkRules c4opts).toOption = some c4rules ∧
    shouldCrawl c4rules "http://127.0.0.2/" 0 0 = true ∧
    shouldCrawl c4rules "not a url" 0 0 = true := by
  refine ⟨by decide, by decide, by decide⟩

/-- The engine invariant carried through the BFS loop: the visited set
never holds duplicates, page URLs are pairwise distinct and visited,
error URLs are visited and correspond to actual capability failures,
the counters track the list lengths, every stored page respects the
depth bound, pagesScraped never exceeds maxPages, and no URL is both a
page and an error. -/
structure EngineInv (opts : CrawlOptions)
    (fetchO : String → Except String String)
    (parseO : String → String → Except String ParsedPage)
    (st : CrawlState) : Prop where
  visited_nodup : st.visited.Nodup
  pages_nodup : (st.pages.map PageData.url).Nodup
  pages_visited : ∀ p ∈ st.pages, p.url ∈ st.visited
  errors_visited : ∀ e ∈ st.errors, e.url ∈ st.visited
  pages_count : st.metrics.pagesScraped = st.pages.length
  errors_count : st.metrics.errors = st.errors.length
  pages_depth : ∀ p ∈ st.pages, p.depth < opts.maxDepth
  pages_bound : st.metrics.pagesScraped ≤ opts.maxPages
  disjoint : ∀ p ∈ st.pages, ∀ e ∈ st.errors, p.url ≠ e.url
  errors_oracle : ∀ e ∈ st.errors, fetchParse fetchO parseO e.url = Except.error e.error

/-- A successful shouldCrawl implies the depth bound. -/
theorem shouldCrawl_true_depth (r : CrawlRules) (url : String) (depth pagesScraped : Nat)
    (h : shouldCrawl r url depth pagesScraped = true) : depth < r.options.maxDepth := by
  rw [shouldCrawl_conj] at h
  simp only [Bool.and_eq_true] at h
  have := h.1.1.1
  unfold shouldCrawlDepth at this
  exact of_decide_eq_true this

/-- A successful shouldCrawl implies the page budget is not exhausted. -/
theorem shouldCrawl_true_pages (r : CrawlRules) (url : String) (depth pagesScraped : Nat)
    (h : shouldCrawl r url depth pagesScraped = true) : pagesScraped < r.options.maxPages := by
  rw [shouldCrawl_conj] at h
  simp only [Bool.and_eq_true] at h
  have h2 := h.1.1.2
  unfold hasReachedPageLimit at h2
  simp only [Bool.not_eq_true'] at h2
  exact Nat.lt_of_not_le (of_decide_eq_false h2)

theorem pagesScraped_updateDepth (m : JobMetrics) (d : Nat) :
    (updateDepth m d).pagesScraped = m.pagesScraped := by
  unfold updateDepth
  split <;> rfl

theorem errors_updateDepth (m : JobMetrics) (d : Nat) :
    (updateDepth m d).errors = m.errors := by
  unfold updateDepth
  split <;> rfl

theorem pagesScraped_addLinks (m : JobMetrics) (n : Nat) :
    (addLinksDiscovered m n).pagesScraped = m.pagesScraped := rfl

theorem errors_addLinks (m : JobMetrics) (n : Nat) :
    (addLinksDiscovered m n).errors = m.errors := rfl

/-- Appending one page and bumping the page counter preserves the
invariant when the page's URL is visited, fresh among pages, absent from
the errors, and inside the depth and page budgets. -/
theorem inv_addPage (opts : CrawlOptions)
    (fetchO : String → Except String String)
    (parseO : String → String → Except String ParsedPage)
    (st : CrawlState) (pd : PageData) (q2 : List QueueItem) (m2 : JobMetrics) (t2 : Nat)
    (hinv : EngineInv opts fetchO parseO st)
    (hm1 : m2.pagesScraped = st.metrics.pagesScraped + 1)
    (hm2 : m2.errors = st.metrics.errors)
    (hvis : pd.url ∈ st.visited)
    (hnp : pd.url ∉ st.pages.map PageData.url)
    (hne : ∀ e ∈ st.errors, e.url ≠ pd.url)
    (hd : pd.depth < opts.maxDepth)
    (hb : st.metrics.pagesScraped < opts.maxPages) :
    EngineInv opts fetchO parseO
      { queue := q2, visited := st.visited, metrics := m2,
        pages := st.pages ++ [pd], errors := st.errors, time := t2 } := by
  constructor
  · exact hinv.visited_nodup
  · simp only [List.map_append, List.map_cons, List.map_nil]
    rw [List.nodup_append]
    refine ⟨hinv.pages_nodup, List.nodup_singleton _, ?_⟩
    intro a ha hb2
    simp only [List.mem_singleton] at hb2
    subst hb2
    exact hnp ha
  · intro p hp
    rcases List.mem_append.mp hp with h | h
    · exact hinv.pages_visited p h
    · simp only [List.mem_singleton] at h
      subst h
      exact hvis
  · intro e he
    exact hinv.errors_visited e he
  · simp only [hm1, List.length_append, List.length_cons, List.length_nil]
    rw [hinv.pages_count]
  · simpa only [hm2] using hinv.errors_count
  · intro p hp
    rcases List.mem_append.mp hp with h | h
    · exact hinv.pages_depth p h
    · simp only [List.mem_singleton] at h
      subst h
      exact hd
  · simp only [hm1]
    omega
  · intro p hp e he
    rcases List.mem_append.mp hp with h | h
    · exact hinv.disjoint p h e he
    · simp only [List.mem_singleton] at h
      subst h
      exact fun hcontra => hne e he hcontra.symm
  · intro e he
    exact hinv.errors_oracle e he

/-- Appending one error and bumping the error counter preserves the
invariant when the error's URL is visited, absent from the pages, and
really failed in the capabilities. -/
theorem inv_addError (opts : CrawlOptions)
    (fetchO : String → Except String String)
    (parseO : String → String → Except String ParsedPage)
    (st : CrawlState) (ce : CrawlError) (q2 : List QueueItem) (m2 : JobMetrics) (t2 : Nat)
    (hinv : EngineInv opts fetchO parseO st)
    (hm1 : m2.pagesScraped = st.metrics.pagesScraped)
    (hm2 : m2.errors = st.metrics.errors + 1)
    (hvis : ce.url ∈ st.visited)
    (hnp : ce.url ∉ st.pages.map PageData.url)
    (horacle : fetchParse fetchO parseO ce.url = Except.error ce.error) :
    EngineInv opts fetchO parseO
      { queue := q2, visited := st.visited, metrics := m2,
        pages := st.pages, errors := st.errors ++ [ce], time := t2 } := by
  constructor
  · exact hinv.visited_nodup
  · exact hinv.pages_nodup
  · intro p hp
    exact hinv.pages_visited p hp
  · intro e he
    rcases List.mem_append.mp he with h | h
    · exact hinv.errors_visited e h
    · simp only [List.mem_singleton] at h
      subst h
      exact hvis
  · simpa only [hm1] using hinv.pages_count
  · simp only [hm2, List.length_append, List.length_cons, List.length_nil]
    rw [hinv.errors_count]
  · intro p hp
    exact hinv.pages_depth p hp
  · simpa only [hm1] using hinv.pages_bound
  · intro p hp e he
    rcases List.mem_append.mp he with h | h
    · exact hinv.disjoint p hp e h
    · simp only [List.mem_singleton] at h
      subst h
      intro hcontra
      exact hnp (List.mem_map.mpr ⟨p, hp, hcontra⟩)
  · intro e he
    rcases List.mem_append.mp he with h | h
    · exact hinv.errors_oracle e h
    · simp only [List.mem_singleton] at h
      subst h
      exact horacle

/-- One productive iteration preserves the engine invariant, given that
the current URL is already recorded in Visited, is not yet among the
pages or errors, and passed the rules check. -/
theorem inv_processCurrent (opts : CrawlOptions) (rules : CrawlRules)
    (fetchO : String → Except String String)
    (parseO : String → String → Except String ParsedPage)
    (current : QueueItem) (st : CrawlState)
    (hro : rules.options = opts)
    (hinv : EngineInv opts fetchO parseO st)
    (hcurmem : current.url ∈ st.visited)
    (hnp : current.url ∉ st.pages.map PageData.url)
    (hne : ∀ e ∈ st.errors, e.url ≠ current.url)
    (hsc : shouldCrawl rules current.url current.depth st.metrics.pagesScraped = true) :
    EngineInv opts fetchO parseO (processCurrent opts fetchO parseO current st) := by
  have hdepth : current.depth < opts.maxDepth := by
    rw [← hro]
    exact shouldCrawl_true_depth _ _ _ _ hsc
  have hpages : st.metrics.pagesScraped < opts.maxPages := by
    rw [← hro]
    exact shouldCrawl_true_pages _ _ _ _ hsc
  unfold processCurrent
  cases hfp : fetchParse fetchO parseO current.url with
  | ok parsed =>
    simp only [scrapeSuccess]
    split
    · exact inv_addPage opts fetchO parseO _ _ _ _ _ hinv
        (by simp [pagesScraped_addLinks, incrementPagesScrapped, pagesScraped_updateDepth])
        (by simp [errors_addLinks, incrementPagesScrapped, errors_updateDepth])
        hcurmem hnp hne hdepth hpages
    · exact inv_addPage opts fetchO parseO _ _ _ _ _ hinv
        (by simp [pagesScraped_addLinks, incrementPagesScrapped, pagesScraped_updateDepth])
        (by simp [errors_addLinks, incrementPagesScrapped, errors_updateDepth])
        hcurmem hnp hne hdepth hpages
  | error msg =>
    simp only [scrapeFailure]
    exact inv_addError opts fetchO parseO _ _ _ _ _ hinv
      (by simp [incrementErrors, pagesScraped_updateDepth])
      (by simp [incrementErrors, errors_updateDepth])
      hcurmem hnp hfp

/-- The invariant ignores the queue. -/
theorem inv_set_queue (opts : CrawlOptions)
    (fetchO : String → Except String String)
    (parseO : String → String → Except String ParsedPage)
    (st : CrawlState) (q : List QueueItem)
    (hinv : EngineInv opts fetchO parseO st) :
    EngineInv opts fetchO parseO { st with queue := q } :=
  { visited_nodup := hinv.visited_nodup, pages_nodup := hinv.pages_nodup,
    pages_visited := hinv.pages_visited, errors_visited := hinv.errors_visited,
    pages_count := hinv.pages_count, errors_count := hinv.errors_count,
    pages_depth := hinv.pages_depth, pages_bound := hinv.pages_bound,
    disjoint := hinv.disjoint, errors_oracle := hinv.errors_oracle }

/-- Adding a fresh URL to Visited preserves the invariant. -/
theorem inv_add_visited (opts : CrawlOptions)
    (fetchO : String → Except String String)
    (parseO : String → String → Except String ParsedPage)
    (st : CrawlState) (u : String)
    (hinv : EngineInv opts fetchO parseO st)
    (hmem : u ∉ st.visited) :
    EngineInv opts fetchO parseO { st with visited := st.visited ++ [u] } := by
  constructor
  · rw [List.nodup_append]
    refine ⟨hinv.visited_nodup, List.nodup_singleton _, ?_⟩
    intro a ha hb
    simp only [List.mem_singleton] at hb
    subst hb
    exact hmem ha
  · exact hinv.pages_nodup
  · intro p hp
    exact List.mem_append_left _ (hinv.pages_visited p hp)
  · intro e he
    exact List.mem_append_left _ (hinv.errors_visited e he)
  · exact hinv.pages_count
  · exact hinv.errors_count
  · exact hinv.pages_depth
  · exact hinv.pages_bound
  · exact hinv.disjoint
  · exact hinv.errors_oracle

/-- The BFS loop preserves the engine invariant from any state to the
state it terminates in. -/
theorem crawlLoop_inv (opts : CrawlOptions) (rules : CrawlRules)
    (fetchO : String → Except String String)
    (parseO : String → String → Except String ParsedPage)
    (hro : rules.options = opts) :
    ∀ (fuel : Nat) (st st' : CrawlState),
      crawlLoop opts rules fetchO parseO fuel st = some st' →
      EngineInv opts fetchO parseO st → EngineInv opts fetchO parseO st' := by
  intro fuel
  induction fuel with
  | zero =>
    intro st st' h hinv
    simp [crawlLoop] at h
  | succ fuel ih =>
    intro st st' h hinv
    rw [crawlLoop] at h
    cases hq : st.queue with
    | nil =>
      rw [hq] at h
      cases h
      exact hinv
    | cons current rest =>
      rw [hq] at h
      simp only at h
      by_cases hm : current.url ∈ st.visited
      · rw [if_pos hm] at h
        exact ih _ _ h (inv_set_queue _ _ _ _ _ hinv)
      · rw [if_neg hm] at h
        have hinv2 : EngineInv opts fetchO parseO
            { st with queue := rest, visited := st.visited ++ [current.url] } :=
          inv_add_visited _ _ _ _ _ (inv_set_queue _ _ _ _ _ hinv) hm
        by_cases hsc : shouldCrawl rules current.url current.depth st.metrics.pagesScraped = true
        · rw [if_pos hsc] at h
          have hnp : current.url ∉ st.pages.map PageData.url := by
            intro hcontra
            rcases List.mem_map.mp hcontra with ⟨p, hp, hpu⟩
            exact hm (hpu ▸ hinv.pages_visited p hp)
          have hne : ∀ e ∈ st.errors, e.url ≠ current.url := by
            intro e he hcontra
            exact hm (hcontra ▸ hinv.errors_visited e he)
          have hinv4 : EngineInv opts fetchO parseO
              (processCurrent opts fetchO parseO current
                { st with queue := rest, visited := st.visited ++ [current.url] }) :=
            inv_processCurrent opts rules fetchO parseO current _ hro hinv2
              (List.mem_append_right _ (List.mem_singleton.mpr rfl)) hnp hne hsc
          by_cases hlim : hasReachedPageLimit rules
              (processCurrent opts fetchO parseO current
                { st with queue := rest, visited := st.visited ++ [current.url] }).metrics.pagesScraped = true
          · rw [if_pos hlim] at h
            cases h
            exact hinv4
          · rw [if_neg hlim] at h
            exact ih _ _ h hinv4
        · rw [if_neg hsc] at h
          exact ih _ _ h hinv2

/-- The rules object the constructor returns carries the given options. -/
theorem mkRules_ok_options (o : CrawlOptions) (r : CrawlRules)
    (h : mkRules o = Except.ok r) : r.options = o := by
  unfold mkRules at h
  cases hd : getDomain o.startUrl with
  | error e => rw [hd] at h; simp [Except.map] at h
  | ok d =>
    rw [hd] at h
    simp only [Except.map] at h
    cases h
    rfl

/-- The engine's initial state satisfies the invariant. -/
theorem inv_initial (opts : CrawlOptions)
    (fetchO : String → Except String String)
    (parseO : String → String → Except String ParsedPage)
    (q : List QueueItem) :
    EngineInv opts fetchO parseO
      { queue := q, visited := [], metrics := initialMetrics,
        pages := [], errors := [], time := 0 } := by
  constructor <;> simp [initialMetrics]

/-- A terminating crawl run establishes the engine invariant on its final
state, and the returned result is assembled from that state. -/
theorem crawl_inv (fuel : Nat)
    (fetchO : String → Except String String)
    (parseO : String → String → Except String ParsedPage)
    (options : CrawlOptions) (st : CrawlState) (res : CrawlResult)
    (h : crawl fuel fetchO parseO options = Except.ok (some (st, res))) :
    EngineInv options fetchO parseO st ∧ res = mkResult st := by
  unfold crawl at h
  cases hr : mkRules options with
  | error e => rw [hr] at h; simp at h
  | ok rules =>
    rw [hr] at h
    simp only at h
    cases hn : normalizeUrl options.startUrl with
    | error e => rw [hn] at h; simp at h
    | ok startUrl =>
      rw [hn] at h
      simp only at h
      cases hl : crawlLoop options rules fetchO parseO fuel
          { queue := [{ url := startUrl, depth := 0, parentUrl := none }],
            visited := [], metrics := initialMetrics, pages := [], errors := [], time := 0 } with
      | none => rw [hl] at h; simp at h
      | some stf =>
        rw [hl] at h
        simp only [Except.ok.injEq, Option.some.injEq, Prod.mk.injEq] at h
        obtain ⟨h1, h2⟩ := h
        subst h1
        refine ⟨?_, h2.symm⟩
        exact crawlLoop_inv options rules fetchO parseO (mkRules_ok_options _ _ hr)
          fuel _ _ hl (inv_initial options fetchO parseO _)

/-- C1: in every terminating crawl run, a URL enters Visited at most once
(the Visited list stays duplicate-free), and consequently no URL appears
twice in the returned pages list, whatever cycles the link graph has. -/
theorem crawl_visited_once (fuel : Nat)
    (fetchO : String → Except String String)
    (parseO : String → String → Except String ParsedPage)
    (options : CrawlOptions) (st : CrawlState) (res : CrawlResult)
    (h : crawl fuel fetchO parseO options = Except.ok (some (st, res))) :
    st.visited.Nodup ∧ (res.pages.map PageData.url).Nodup := by
  obtain ⟨hinv, hres⟩ := crawl_inv fuel fetchO parseO options st res h
  subst hres
  exact ⟨hinv.visited_nodup, hinv.pages_nodup⟩

/-- C1 witness: the demo crawl terminates and its Visited list and page
URLs are duplicate-free. -/
theorem crawl_visited_once_witness :
    demoFinalState.visited.Nodup ∧ (demoFinalResult.pages.map PageData.url).Nodup :=
  crawl_visited_once 10 demoFetch demoParse demoOpts demoFinalState demoFinalResult (by rfl)

/-- C2: every terminating crawl returns pagesScraped bounded by maxPages,
and the loop stops right after the iteration that reaches the limit,
returning even though items may remain in the queue. -/
theorem crawl_page_limit :
    (∀ (fuel : Nat) (fetchO : String → Except String String)
       (parseO : String → String → Except String ParsedPage)
       (options : CrawlOptions) (st : CrawlState) (res : CrawlResult),
       crawl fuel fetchO parseO options = Except.ok (some (st, res)) →
       res.pagesScraped ≤ options.maxPages) ∧
    (∀ (opts2 : CrawlOptions) (rules2 : CrawlRules)
       (f2 : String → Except String String)
       (p2 : String → String → Except String ParsedPage)
       (fuel2 : Nat) (st2 : CrawlState) (current : QueueItem) (rest : List QueueItem),
       st2.queue = current :: rest →
       current.url ∉ st2.visited →
       shouldCrawl rules2 current.url current.depth st2.metrics.pagesScraped = true →
       hasReachedPageLimit rules2 (processCurrent opts2 f2 p2 current
         { st2 with queue := rest, visited := st2.visited ++ [current.url] }).metrics.pagesScraped = true →
       crawlLoop opts2 rules2 f2 p2 (fuel2 + 1) st2 =
         some (processCurrent opts2 f2 p2 current
           { st2 with queue := rest, visited := st2.visited ++ [current.url] })) := by
  constructor
  · intro fuel fetchO parseO options st res h
    obtain ⟨hinv, hres⟩ := crawl_inv fuel fetchO parseO options st res h
    subst hres
    exact hinv.pages_bound
  · intro opts2 rules2 f2 p2 fuel2 st2 current rest hq hm hsc hlim
    rw [crawlLoop, hq]
    simp only
    rw [if_neg hm, if_pos hsc, if_pos hlim]

/-- The options of the limit scenario: a page budget of one. -/
def c2opts : CrawlOptions :=
  { startUrl := "http://a.com/", strategy := Strategy.domain, maxDepth := 2,
    maxPages := 1, concurrency := 1, timeout := 1000 }

/-- The rules of the limit scenario. -/
def c2rules : CrawlRules :=
  { options := c2opts, baseDomain := "a.com" }

/-- The dequeued seed of the limit scenario. -/
def c2item : QueueItem :=
  { url := "http://a.com/", depth := 0, parentUrl := none }

/-- A second queued item that remains in the queue when the limit hits. -/
def c2rest : List QueueItem :=
  [{ url := "http://a.com/b", depth := 1, parentUrl := some "http://a.com/" }]

/-- The state of the limit scenario at the head of the loop. -/
def c2st : CrawlState :=
  { queue := c2item :: c2rest, visited := [], metrics := initialMetrics,
    pages := [], errors := [], time := 0 }

/-- C2 witness: the demo bound holds, and in the one-page-budget scenario
the loop returns right after its first scrape with the second item still
queued. -/
theorem crawl_page_limit_witness :
    demoFinalResult.pagesScraped ≤ demoOpts.maxPages ∧
    crawlLoop c2opts c2rules demoFetch demoParse 5 c2st =
      some (processCurrent c2opts demoFetch demoParse c2item
        { c2st with queue := c2rest, visited := c2st.visited ++ [c2item.url] }) :=
  ⟨crawl_page_limit.1 10 demoFetch demoParse demoOpts demoFinalState demoFinalResult (by rfl),
   crawl_page_limit.2 c2opts c2rules demoFetch demoParse 4 c2st c2item c2rest
     (by rfl) (by decide) (by rfl) (by rfl)⟩

/-- C3: every page of a terminating crawl run has depth strictly below
maxDepth; discovered links are enqueued at depth+1 with parentUrl the
current URL exactly when depth+1 is below maxDepth; and the rules engine
re-checks the depth bound at dequeue time (shouldCrawl implies
shouldCrawlDepth). -/
theorem crawl_depth_bound :
    (∀ (fuel : Nat) (fetchO : String → Except String String)
       (parseO : String → String → Except String ParsedPage)
       (options : CrawlOptions) (st : CrawlState) (res : CrawlResult),
       crawl fuel fetchO parseO options = Except.ok (some (st, res)) →
       ∀ pg ∈ res.pages, pg.depth < options.maxDepth) ∧
    (∀ (opts2 : CrawlOptions) (current : QueueItem) (parsed : ParsedPage) (stx : CrawlState),
       (scrapeSuccess opts2 current parsed stx).queue =
         stx.queue ++
           (if current.depth + 1 < opts2.maxDepth then
             (extractLinks parsed.links current.url).map fun l =>
               { url := l, depth := current.depth + 1, parentUrl := some current.url }
            else [])) ∧
    (∀ (r : CrawlRules) (u : String) (d ps : Nat),
       shouldCrawl r u d ps = true → shouldCrawlDepth r d = true) := by
  refine ⟨?_, ?_, ?_⟩
  · intro fuel fetchO parseO options st res h pg hpg
    obtain ⟨hinv, hres⟩ := crawl_inv fuel fetchO parseO options st res h
    subst hres
    exact hinv.pages_depth pg hpg
  · intro opts2 current parsed stx
    unfold scrapeSuccess
    split
    · rfl
    · simp
  · intro r u d ps h
    rw [shouldCrawl_conj] at h
    simp only [Bool.and_eq_true] at h
    exact h.1.1.1

/-- The second page of the demo run. -/
def demoPageB : PageData :=
  { url := "http://a.com/b", title := "B", text := "t", links := [],
    depth := 1, scrapedAt := 1, meta := "m" }

/-- The parse output of the demo seed page in the edge-depth scenario. -/
def c2parsed : ParsedPage :=
  { title := "A", text := "ta", links := ["http://a.com/b"], meta := "m" }

/-- C3 witness: the demo page at depth 1 is below maxDepth 2; at the edge
depth the success update enqueues nothing; the demo seed passes the
re-checked depth bound. -/
theorem crawl_depth_bound_witness :
    demoPageB.depth < demoOpts.maxDepth ∧
    (scrapeSuccess c2opts c2item c2parsed c2st).queue =
      c2st.queue ++
        (if c2item.depth + 1 < c2opts.maxDepth then
          (extractLinks c2parsed.links c2item.url).map fun l =>
            { url := l, depth := c2item.depth + 1, parentUrl := some c2item.url }
         else []) ∧
    shouldCrawlDepth c2rules 0 = true :=
  ⟨crawl_depth_bound.1 10 demoFetch demoParse demoOpts demoFinalState demoFinalResult
     (by rfl) demoPageB (by decide),
   crawl_depth_bound.2.1 c2opts c2item c2parsed c2st,
   crawl_depth_bound.2.2 c2rules "http://a.com/" 0 0 (by rfl)⟩

/-- C5: in every terminating crawl run, each recorded CrawlError carries
the URL, the very message the fetch/parse capabilities failed with, and a
timestamp, and its URL never appears among the returned pages; moreover a
failing iteration only appends that error, leaves the pages untouched and
the loop goes on (the failure state update changes nothing else). -/
theorem crawl_error_isolation :
    (∀ (fuel : Nat) (fetchO : String → Except String String)
       (parseO : String → String → Except String ParsedPage)
       (options : CrawlOptions) (st : CrawlState) (res : CrawlResult),
       crawl fuel fetchO parseO options = Except.ok (some (st, res)) →
       ∀ e ∈ res.errors, fetchParse fetchO parseO e.url = Except.error e.error ∧
         ∀ pg ∈ res.pages, pg.url ≠ e.url) ∧
    (∀ (current : QueueItem) (msg : String) (stx : CrawlState),
       (scrapeFailure current msg stx).errors =
         stx.errors ++ [{ url := current.url, error := msg, timestamp := stx.time }] ∧
       (scrapeFailure current msg stx).pages = stx.pages ∧
       (scrapeFailure current msg stx).queue = stx.queue) := by
  constructor
  · intro fuel fetchO parseO options st res h e he
    obtain ⟨hinv, hres⟩ := crawl_inv fuel fetchO parseO options st res h
    subst hres
    exact ⟨hinv.errors_oracle e he, fun pg hpg => hinv.disjoint pg hpg e he⟩
  · intro current msg stx
    exact ⟨rfl, rfl, rfl⟩

/-- The error record of the demo run. -/
def demoErr : CrawlError :=
  { url := "http://a.com/err", error := "Failed to fetch http://a.com/err: timeout",
    timestamp := 2 }

/-- C5 witness: the demo run's one error is exactly the capability
failure on the broken URL, that URL is on no returned page, and the
failure update appends just this error. -/
theorem crawl_error_isolation_witness :
    (fetchParse demoFetch demoParse demoErr.url = Except.error demoErr.error ∧
     ∀ pg ∈ demoFinalResult.pages, pg.url ≠ demoErr.url) ∧
    (scrapeFailure c2item "boom" c2st).errors =
      c2st.errors ++ [{ url := c2item.url, error := "boom", timestamp := c2st.time }] :=
  ⟨crawl_error_isolation.1 10 demoFetch demoParse demoOpts demoFinalState demoFinalResult
     (by rfl) demoErr (by decide),
   (crawl_error_isolation.2 c2item "boom" c2st).1⟩

/-- C10: in every terminating crawl run the returned pagesScraped counter
equals the length of the returned pages list, and the engine's error
metric equals the length of the returned errors list. -/
theorem crawl_counter_consistency (fuel : Nat)
    (fetchO : String → Except String String)
    (parseO : String → String → Except String ParsedPage)
    (options : CrawlOptions) (st : CrawlState) (res : CrawlResult)
    (h : crawl fuel fetchO parseO options = Except.ok (some (st, res))) :
    res.pagesScraped = res.pages.length ∧ st.metrics.errors = res.errors.length := by
  obtain ⟨hinv, hres⟩ := crawl_inv fuel fetchO parseO options st res h
  subst hres
  exact ⟨hinv.pages_count, hinv.errors_count⟩

/-- C10 witness: counters and list lengths agree on the demo run. -/
theorem crawl_counter_consistency_witness :
    demoFinalResult.pagesScraped = demoFinalResult.pages.length ∧
    demoFinalState.metrics.errors = demoFinalResult.errors.length :=
  crawl_counter_consistency 10 demoFetch demoParse demoOpts demoFinalState demoFinalResult
    (by rfl)

/-- C6: createJob stores a pending Job carrying the generated id (the
crawl starts in the background; the caller gets the id at once); the
stored records of one job move strictly forward in lifecycle rank —
pending, then running, then exactly one terminal record: failed with the
error message attached when the engine threw (e.g. an unparsable seed
URL), completed on a normal engine return; and no rank lies beyond a
terminal status, so nothing ever leaves completed or failed. -/
theorem job_lifecycle :
    (∀ (options : CrawlOptions) (now : Nat) (rand : String),
       (createJob options now rand).status = JobStatus.pending ∧
       (createJob options now rand).id = generateJobId now rand) ∧
    (∀ (options : CrawlOptions) (now : Nat) (rand : String)
       (outcome : Except String CrawlResult) (tEnd : Nat),
       List.Chain' (fun a b => statusRank a.status < statusRank b.status)
         (jobStates options now rand outcome tEnd)) ∧
    (∀ (options : CrawlOptions) (now : Nat) (rand : String) (e : String) (tEnd : Nat),
       ((jobStates options now rand (Except.error e) tEnd).getLast?).map Job.status =
         some JobStatus.failed ∧
       ((jobStates options now rand (Except.error e) tEnd).getLast?).map Job.error =
         some (some e)) ∧
    (∀ (options : CrawlOptions) (now : Nat) (rand : String) (res : CrawlResult) (tEnd : Nat),
       ((jobStates options now rand (Except.ok res) tEnd).getLast?).map Job.status =
         some JobStatus.completed) ∧
    (∀ s s2 : JobStatus, isTerminal s = true → ¬ statusRank s < statusRank s2) := by
  refine ⟨?_, ?_, ?_, ?_, ?_⟩
  · intro options now rand
    exact ⟨rfl, rfl⟩
  · intro options now rand outcome tEnd
    cases outcome <;>
      simp [jobStates, executeCrawlStates, createJob, List.chain'_cons, statusRank]
  · intro options now rand e tEnd
    exact ⟨rfl, rfl⟩
  · intro options now rand res tEnd
    rfl
  · intro s s2 h
    cases s <;> cases s2 <;> simp_all [isTerminal, statusRank]

/-- Options with an unparsable seed URL. -/
def badOpts : CrawlOptions :=
  { startUrl := ":", strategy := Strategy.domain, maxDepth := 2, maxPages := 10,
    concurrency := 1, timeout := 1000 }

/-- C6 witness: a concrete job; the engine throws on the unparsable seed,
and the stored records walk pending to running to failed with that
message attached; a completed status absorbs. -/
theorem job_lifecycle_witness :
    (createJob badOpts 5 "abc").status = JobStatus.pending ∧
    crawl 10 demoFetch demoParse badOpts = Except.error "Invalid URL: :" ∧
    List.Chain' (fun a b => statusRank a.status < statusRank b.status)
      (jobStates badOpts 5 "abc" (Except.error "Invalid URL: :") 9) ∧
    ((jobStates badOpts 5 "abc" (Except.error "Invalid URL: :") 9).getLast?).map Job.status =
      some JobStatus.failed ∧
    ((jobStates badOpts 5 "abc" (Except.error "Invalid URL: :") 9).getLast?).map Job.error =
      some (some "Invalid URL: :") ∧
    ¬ statusRank JobStatus.completed < statusRank JobStatus.running :=
  ⟨(job_lifecycle.1 badOpts 5 "abc").1,
   by rfl,
   job_lifecycle.2.1 badOpts 5 "abc" (Except.error "Invalid URL: :") 9,
   (job_lifecycle.2.2.1 badOpts 5 "abc" "Invalid URL: :" 9).1,
   (job_lifecycle.2.2.1 badOpts 5 "abc" "Invalid URL: :" 9).2,
   job_lifecycle.2.2.2.2 JobStatus.completed JobStatus.running (by rfl)⟩

/-- C9 (code bug): the engine's metrics do track the maximum depth (the
demo run reaches depth 1 and the engine metric says 1), but the job
manager finalizes the completed job with currentDepth hardcoded to 0 —
its source comment promises the crawler will update it, which never
happens — so the externally exposed snapshot of a completed job reports
currentDepth 0 instead of the maximum page depth. -/
theorem job_currentDepth_bug :
    crawl 10 demoFetch demoParse demoOpts = Except.ok (some (demoFinalState, demoFinalResult)) ∧
    demoFinalState.metrics.currentDepth = 1 ∧
    (demoFinalResult.pages.map PageData.depth).foldr max 0 = 1 ∧
    ((jobStates demoOpts 5 "abc" (Except.ok demoFinalResult) 9).getLast?).map
      (fun j => (getJobStatus j).metrics.currentDepth) = some 0 :=
  ⟨by rfl, rfl, by rfl, rfl⟩

/-- Lowercasing preserves membership in the scheme character class. -/
theorem schemeChar_toLower (c : Char) (h : schemeChar c = true) :
    schemeChar c.toLower = true := by
  show schemeChar (Char.toLower c) = true
  unfold Char.toLower
  by_cases hc : c.toNat ≥ 65 ∧ c.toNat ≤ 90
  · rw [if_pos hc]
    obtain ⟨h1, h2⟩ := hc
    generalize c.toNat = n at h1 h2
    interval_cases n <;> decide
  · rw [if_neg hc]
    exact h

/-- Lowercasing preserves membership in the hostname character class. -/
theorem hostChar_toLower (c : Char) (h : hostChar c = true) :
    hostChar c.toLower = true := by
  show hostChar (Char.toLower c) = true
  unfold Char.toLower
  by_cases hc : c.toNat ≥ 65 ∧ c.toNat ≤ 90
  · rw [if_pos hc]
    obtain ⟨h1, h2⟩ := hc
    generalize c.toNat = n at h1 h2
    interval_cases n <;> decide
  · rw [if_neg hc]
    exact h

theorem splitSep_cons (sep c : Char) (cs : List Char) :
    splitSep sep (c :: cs) =
      if c = sep then [] :: splitSep sep cs
      else
        match splitSep sep cs with
        | [] => [[c]]
        | p :: ps => (c :: p) :: ps := rfl

/-- A separator-free list splits into itself alone. -/
theorem splitSep_no_sep (sep : Char) (l : List Char) (h : sep ∉ l) :
    splitSep sep l = [l] := by
  induction l with
  | nil => rfl
  | cons c cs ih =>
    rw [splitSep_cons, if_neg (by rintro rfl; exact h (List.mem_cons_self _ _))]
    rw [ih (fun hc => h (List.mem_cons_of_mem _ hc))]

/-- Splitting past a leading separator-free piece. -/
theorem splitSep_app (sep : Char) (p r : List Char) (h : sep ∉ p) :
    splitSep sep (p ++ sep :: r) = p :: splitSep sep r := by
  induction p with
  | nil =>
    rw [List.nil_append, splitSep_cons, if_pos rfl]
  | cons c cs ih =>
    rw [List.cons_append, splitSep_cons,
      if_neg (by rintro rfl; exact h (List.mem_cons_self _ _)),
      ih (fun hc => h (List.mem_cons_of_mem _ hc))]

/-- Splitting a join recovers the pieces when no piece holds the
separator. -/
theorem splitSep_joinSep (sep : Char) (ps : List (List Char))
    (h : ∀ p ∈ ps, sep ∉ p) (hne : ps ≠ []) :
    splitSep sep (joinSep sep ps) = ps := by
  induction ps with
  | nil => exact absurd rfl hne
  | cons p ps ih =>
    cases ps with
    | nil =>
      unfold joinSep
      exact splitSep_no_sep sep p (h p (List.mem_cons_self _ _))
    | cons q qs =>
      have hj : joinSep sep (p :: q :: qs) = p ++ sep :: joinSep sep (q :: qs) := rfl
      rw [hj, splitSep_app sep p _ (h p (List.mem_cons_self _ _))]
      rw [ih (fun x hx => h x (List.mem_cons_of_mem _ hx)) (by simp)]

/-- Pieces of a split never hold the separator. -/
theorem mem_splitSep_not_sep (sep : Char) (l : List Char) :
    ∀ piece ∈ splitSep sep l, sep ∉ piece := by
  induction l with
  | nil =>
    intro piece hp
    simp only [splitSep, List.mem_singleton] at hp
    subst hp
    exact List.not_mem_nil _
  | cons c cs ih =>
    intro piece hp
    unfold splitSep at hp
    by_cases hc : c = sep
    · rw [if_pos hc] at hp
      rcases List.mem_cons.mp hp with h | h
      · subst h; exact List.not_mem_nil _
      · exact ih piece h
    · rw [if_neg hc] at hp
      cases hsp : splitSep sep cs with
      | nil =>
        rw [hsp] at hp
        simp only [List.mem_singleton] at hp
        subst hp
        intro hm
        exact hc (List.mem_singleton.mp hm).symm
      | cons p2 ps2 =>
        rw [hsp] at hp
        rcases List.mem_cons.mp hp with h | h
        · subst h
          intro hmem
          rcases List.mem_cons.mp hmem with h2 | h2
          · exact hc h2.symm
          · exact ih p2 (hsp ▸ List.mem_cons_self _ _) h2
        · exact ih piece (hsp ▸ List.mem_cons_of_mem _ h)

/-- Characters of a piece of a split come from the original list. -/
theorem mem_splitSep_subset (sep : Char) (l : List Char) :
    ∀ piece ∈ splitSep sep l, ∀ c ∈ piece, c ∈ l := by
  induction l with
  | nil =>
    intro piece hp
    simp only [splitSep, List.mem_singleton] at hp
    subst hp
    intro c hc
    exact absurd hc (List.not_mem_nil _)
  | cons a as ih =>
    intro piece hp c hc
    unfold splitSep at hp
    by_cases ha : a = sep
    · rw [if_pos ha] at hp
      rcases List.mem_cons.mp hp with h | h
      · subst h; exact absurd hc (List.not_mem_nil _)
      · exact List.mem_cons_of_mem _ (ih piece h c hc)
    · rw [if_neg ha] at hp
      cases hsp : splitSep sep as with
      | nil =>
        rw [hsp] at hp
        simp only [List.mem_singleton] at hp
        subst hp
        exact (List.mem_singleton.mp hc) ▸ List.mem_cons_self _ _
      | cons p2 ps2 =>
        rw [hsp] at hp
        rcases List.mem_cons.mp hp with h | h
        · subst h
          rcases List.mem_cons.mp hc with h2 | h2
          · exact h2 ▸ List.mem_cons_self _ _
          · exact List.mem_cons_of_mem _ (ih p2 (hsp ▸ List.mem_cons_self _ _) c h2)
        · exact List.mem_cons_of_mem _ (ih piece (hsp ▸ List.mem_cons_of_mem _ h) c hc)

/-- Well-formedness of one query entry for round-tripping: the key holds
neither an equals sign nor an ampersand, the value holds no ampersand,
and all characters are legal query characters. -/
def EntryWF (kv : String × String) : Prop :=
  ('=' ∉ kv.1.data) ∧ ('&' ∉ kv.1.data) ∧ (∀ c ∈ kv.1.data, queryChar c = true) ∧
  ('&' ∉ kv.2.data) ∧ (∀ c ∈ kv.2.data, queryChar c = true)

theorem entryPiece_ne_nil (kv : String × String) : entryPiece kv ≠ [] := by
  unfold entryPiece
  cases h : kv.1.data <;> simp

theorem entryPiece_no_amp (kv : String × String) (h : EntryWF kv) :
    '&' ∉ entryPiece kv := by
  unfold entryPiece
  intro hm
  rcases List.mem_append.mp hm with h2 | h2
  · exact h.2.1 h2
  · rcases List.mem_cons.mp h2 with h3 | h3
    · exact absurd h3 (by decide)
    · exact h.2.2.2.1 h3

/-- Decoding one serialized entry gives the entry back. -/
theorem parseQuery_piece (kv : String × String) (h : EntryWF kv) :
    (if entryPiece kv = [] then none
     else some (String.mk ((entryPiece kv).takeWhile (fun c => c != '=')),
                String.mk (((entryPiece kv).dropWhile (fun c => c != '=')).drop 1))) =
      some kv := by
  rw [if_neg (entryPiece_ne_nil kv)]
  unfold entryPiece
  have hall : ∀ a ∈ kv.1.data, (a != '=') = true := by
    intro a ha
    exact bne_iff_ne.mpr (fun hc => h.1 (hc ▸ ha))
  rw [List.takeWhile_append_of_pos hall, List.dropWhile_append_of_pos hall]
  rw [List.takeWhile_cons_of_neg (by decide), List.dropWhile_cons_of_neg (by decide)]
  rw [List.append_nil]
  rfl

/-- Decoding the serialized pieces of a well-formed entry list gives the
list back. -/
theorem filterMap_entryPieces (q : List (String × String))
    (h : ∀ kv ∈ q, EntryWF kv) :
    List.filterMap
      (fun piece =>
        if piece = [] then none
        else
          some (String.mk (piece.takeWhile (fun c => c != '=')),
                String.mk ((piece.dropWhile (fun c => c != '=')).drop 1)))
      (q.map entryPiece) = q := by
  induction q with
  | nil => rfl
  | cons kv rest ih =>
    rw [List.map_cons]
    simp only [List.filterMap_cons]
    have hthis := parseQuery_piece kv (h kv (List.mem_cons_self _ _))
    rw [hthis]
    rw [ih (fun x hx => h x (List.mem_cons_of_mem _ hx))]

/-- Decoding the serialized entries of a nonempty well-formed list gives
the list back. -/
theorem parseQuery_join (q : List (String × String))
    (h : ∀ kv ∈ q, EntryWF kv) (hne : q ≠ []) :
    parseQuery (joinSep '&' (q.map entryPiece)) = q := by
  unfold parseQuery
  rw [splitSep_joinSep '&' (q.map entryPiece)
    (by intro p hp
        rcases List.mem_map.mp hp with ⟨kv, hkv, hkp⟩
        exact hkp ▸ entryPiece_no_amp kv (h kv hkv))
    (by simpa using hne)]
  exact filterMap_entryPieces q h

/-- Every entry decoded from a raw query is well formed. -/
theorem parseQuery_wf (q : List Char) (hq : ∀ c ∈ q, queryChar c = true) :
    ∀ kv ∈ parseQuery q, EntryWF kv := by
  intro kv hkv
  unfold parseQuery at hkv
  rcases List.mem_filterMap.mp hkv with ⟨piece, hpiece, hsome⟩
  have hnoamp : '&' ∉ piece := mem_splitSep_not_sep '&' q piece hpiece
  have hsub : ∀ c ∈ piece, c ∈ q := mem_splitSep_subset '&' q piece hpiece
  by_cases hc : piece = []
  · rw [if_pos hc] at hsome
    exact absurd hsome (by simp)
  · rw [if_neg hc] at hsome
    simp only [Option.some.injEq] at hsome
    subst hsome
    refine ⟨?_, ?_, ?_, ?_, ?_⟩
    · intro hm
      have := List.mem_takeWhile_imp hm
      simp at this
    · intro hm
      exact hnoamp ((List.takeWhile_sublist _).subset hm)
    · intro c hcm
      exact hq c (hsub c ((List.takeWhile_sublist _).subset hcm))
    · intro hm
      exact hnoamp ((List.dropWhile_sublist _).subset ((List.drop_sublist _ _).subset hm))
    · intro c hcm
      exact hq c (hsub c ((List.dropWhile_sublist _).subset ((List.drop_sublist _ _).subset hcm)))

theorem mem_insEntry (a x : String × String) (l : List (String × String)) :
    x ∈ insEntry a l ↔ x = a ∨ x ∈ l := by
  induction l with
  | nil => simp [insEntry]
  | cons y ys ih =>
    unfold insEntry
    split
    · simp [List.mem_cons]
    · simp only [List.mem_cons, ih]
      tauto

theorem sortEntries_subset (l : List (String × String)) :
    ∀ x ∈ sortEntries l, x ∈ l := by
  induction l with
  | nil => simp [sortEntries]
  | cons y ys ih =>
    intro x hx
    unfold sortEntries at hx
    rcases (mem_insEntry y x (sortEntries ys)).mp hx with h | h
    · exact h ▸ List.mem_cons_self _ _
    · exact List.mem_cons_of_mem _ (ih x h)

theorem insEntry_pairwise (a : String × String) (l : List (String × String))
    (h : List.Pairwise (fun x y => x.1 ≤ y.1) l) :
    List.Pairwise (fun x y => x.1 ≤ y.1) (insEntry a l) := by
  induction l with
  | nil => simp [insEntry]
  | cons y ys ih =>
    unfold insEntry
    rcases List.pairwise_cons.mp h with ⟨hy, hys⟩
    split
    · next hle =>
      rw [List.pairwise_cons]
      refine ⟨?_, h⟩
      intro z hz
      rcases List.mem_cons.mp hz with h2 | h2
      · exact h2 ▸ hle
      · exact le_trans hle (hy z h2)
    · next hle =>
      rw [List.pairwise_cons]
      refine ⟨?_, ih hys⟩
      intro z hz
      rcases (mem_insEntry a z ys).mp hz with h2 | h2
      · exact h2 ▸ le_of_not_le hle
      · exact hy z h2

theorem sortEntries_pairwise (l : List (String × String)) :
    List.Pairwise (fun x y => x.1 ≤ y.1) (sortEntries l) := by
  induction l with
  | nil => simp [sortEntries]
  | cons y ys ih => exact insEntry_pairwise y (sortEntries ys) ih

theorem insEntry_of_pairwise (x : String × String) (xs : List (String × String))
    (h : List.Pairwise (fun a b => a.1 ≤ b.1) (x :: xs)) :
    insEntry x xs = x :: xs := by
  cases xs with
  | nil => rfl
  | cons y ys =>
    unfold insEntry
    rw [if_pos ((List.pairwise_cons.mp h).1 y (List.mem_cons_self _ _))]

/-- A key-sorted entry list is a fixed point of the sort. -/
theorem sortEntries_eq_self (l : List (String × String))
    (h : List.Pairwise (fun a b => a.1 ≤ b.1) l) :
    sortEntries l = l := by
  induction l with
  | nil => rfl
  | cons x xs ih =>
    unfold sortEntries
    rw [ih (List.pairwise_cons.mp h).2]
    exact insEntry_of_pairwise x xs h

/-- Sorting twice is sorting once. -/
theorem sortEntries_idem (l : List (String × String)) :
    sortEntries (sortEntries l) = sortEntries l :=
  sortEntries_eq_self _ (sortEntries_pairwise l)

theorem parseScheme_facts (cs : List Char) (sr : List Char × List Char)
    (h : parseScheme cs = some sr) :
    sr.1 ≠ [] ∧ ∀ c ∈ sr.1, schemeChar c = true := by
  unfold parseScheme at h
  split at h
  · simp only at h
    split at h
    · next hcond =>
      simp only [Option.some.injEq] at h
      subst h
      exact ⟨hcond.1, fun c hc => List.all_eq_true.mp hcond.2 c hc⟩
    · exact absurd h (by simp)
  · exact absurd h (by simp)

theorem parseAuth_facts (cs : List Char) (hpr : List Char × List Char × List Char)
    (h : parseAuth cs = some hpr) :
    hpr.1 ≠ [] ∧ (∀ c ∈ hpr.1, hostChar c = true) ∧
    (∀ c ∈ hpr.2.1, c.isDigit = true) ∧
    (hpr.2.1.length ≤ 1 ∨ hpr.2.1.head? ≠ some '0') := by
  unfold parseAuth at h
  simp only at h
  split at h
  · exact absurd h (by simp)
  · next hcond =>
    push_neg at hcond
    split at h
    · simp only [Option.some.injEq] at h
      subst h
      refine ⟨hcond.1, fun c hc => List.all_eq_true.mp hcond.2 c hc, by simp, by simp⟩
    · split at h
      · next hport =>
        simp only [Option.some.injEq] at h
        subst h
        refine ⟨hcond.1, fun c hc => List.all_eq_true.mp hcond.2 c hc, ?_, ?_⟩
        · exact fun c hc => List.all_eq_true.mp hport.1 c hc
        · exact hport.2
      · exact absurd h (by simp)

theorem parsePath_facts (cs : List Char) (pr : List Char × List Char)
    (h : parsePath cs = some pr) :
    pr.1.head? = some '/' ∧ ∀ c ∈ pr.1, pathChar c = true := by
  unfold parsePath at h
  split at h
  · next c cs2 =>
    simp only at h
    split at h
    · simp only [Option.some.injEq] at h
      subst h
      constructor
      · rw [List.takeWhile_cons_of_pos (by decide)]
        rfl
      · exact fun c hc => List.mem_takeWhile_imp hc
    · exact absurd h (by simp)
  · simp only [Option.some.injEq] at h
    subst h
    refine ⟨rfl, ?_⟩
    intro c hc
    rw [List.mem_singleton.mp hc]
    decide
  · simp only [Option.some.injEq] at h
    subst h
    refine ⟨rfl, ?_⟩
    intro c hc
    rw [List.mem_singleton.mp hc]
    decide
  · simp only [Option.some.injEq] at h
    subst h
    refine ⟨rfl, ?_⟩
    intro c hc
    rw [List.mem_singleton.mp hc]
    decide
  · exact absurd h (by simp)

theorem parseQueryPart_facts (cs : List Char) (qr : List (String × String) × List Char)
    (h : parseQueryPart cs = some qr) :
    ∀ kv ∈ qr.1, EntryWF kv := by
  unfold parseQueryPart at h
  split at h
  · simp only at h
    split at h
    · next hq =>
      simp only [Option.some.injEq] at h
      subst h
      exact parseQuery_wf _ (fun c hc => List.all_eq_true.mp hq c hc)
    · exact absurd h (by simp)
  · simp only [Option.some.injEq] at h
    subst h
    simp

/-- Well-formedness of a URL object, as guaranteed for every parser
output and preserved by normalization; exactly what the serializer needs
for the parser to read its output back. -/
structure URLWF (u : URLObj) : Prop where
  scheme_shape : ∃ b, u.protocol.data = b ++ [ ':'] ∧ b ≠ [] ∧
    ∀ c ∈ b, schemeChar c = true ∧ c.toLower = c
  host_ne : u.hostname.data ≠ []
  host_chars : ∀ c ∈ u.hostname.data, hostChar c = true ∧ c.toLower = c
  port_digits : ∀ c ∈ u.port.data, c.isDigit = true
  port_shape : u.port.data.length ≤ 1 ∨ u.port.data.head? ≠ some '0'
  port_nondefault : isDefaultPort u.protocol.data.dropLast u.port.data = false
  path_head : u.pathname.data.head? = some '/'
  path_chars : ∀ c ∈ u.pathname.data, pathChar c = true
  query_wf : ∀ kv ∈ u.searchParams, EntryWF kv

/-- A scheme with no default port pairing stays that way on the empty
port. -/
theorem isDefaultPort_nil (scheme : List Char) : isDefaultPort scheme [] = false := by
  unfold isDefaultPort
  simp

/-- Every parser output is well formed. -/
theorem parse_WF (cs : List Char) (u : URLObj) (h : parseChars cs = some u) :
    URLWF u := by
  unfold parseChars at h
  cases hs : parseScheme cs with
  | none => rw [hs] at h; simp at h
  | some sr =>
    rw [hs, Option.some_bind] at h
    cases ha : parseAuth sr.2 with
    | none => rw [ha] at h; simp at h
    | some hpr =>
      rw [ha, Option.some_bind] at h
      cases hp : parsePath hpr.2.2 with
      | none => rw [hp] at h; simp at h
      | some pr =>
        rw [hp, Option.some_bind] at h
        cases hq : parseQueryPart pr.2 with
        | none => rw [hq] at h; simp at h
        | some qr =>
          rw [hq, Option.some_bind] at h
          cases hh : parseHashPart qr.2 with
          | none => rw [hh] at h; simp at h
          | some hsh =>
            rw [hh] at h
            simp only [Option.map_some', Option.some.injEq] at h
            obtain ⟨hs1, hs2⟩ := parseScheme_facts cs sr hs
            obtain ⟨ha1, ha2, ha3, ha4⟩ := parseAuth_facts sr.2 hpr ha
            obtain ⟨hp1, hp2⟩ := parsePath_facts hpr.2.2 pr hp
            have hqw := parseQueryPart_facts pr.2 qr hq
            subst h
            constructor
            · refine ⟨sr.1.map Char.toLower, rfl, by simpa using hs1, ?_⟩
              intro c hc
              rcases List.mem_map.mp hc with ⟨c0, hc0, hcl⟩
              exact ⟨hcl ▸ schemeChar_toLower c0 (hs2 c0 hc0),
                     hcl ▸ char_toLower_toLower c0⟩
            · simpa using ha1
            · intro c hc
              rcases List.mem_map.mp hc with ⟨c0, hc0, hcl⟩
              exact ⟨hcl ▸ hostChar_toLower c0 (ha2 c0 hc0),
                     hcl ▸ char_toLower_toLower c0⟩
            · show ∀ c ∈ (if isDefaultPort (sr.1.map Char.toLower) hpr.2.1 then
                  String.mk [] else String.mk hpr.2.1).data, c.isDigit = true
              split
              · simp
              · exact ha3
            · show (if isDefaultPort (sr.1.map Char.toLower) hpr.2.1 then
                  String.mk [] else String.mk hpr.2.1).data.length ≤ 1 ∨ _ ≠ some '0'
              split
              · left; simp
              · exact ha4
            · show isDefaultPort (String.mk (sr.1.map Char.toLower ++ [ ':'])).data.dropLast
                (if isDefaultPort (sr.1.map Char.toLower) hpr.2.1 then
                  String.mk [] else String.mk hpr.2.1).data = false
              have hdl : (String.mk (sr.1.map Char.toLower ++ [ ':'])).data.dropLast =
                  sr.1.map Char.toLower := by
                show (sr.1.map Char.toLower ++ [ ':']).dropLast = sr.1.map Char.toLower
                simp
              rw [hdl]
              cases hdp : isDefaultPort (sr.1.map Char.toLower) hpr.2.1
              · rw [if_neg (by simp [hdp])]
                exact hdp
              · rw [if_pos (by simp [hdp])]
                exact isDefaultPort_nil _
            · exact hp1
            · exact hp2
            · exact hqw

/-- A character in a Boolean class is distinct from any character
outside it. -/
theorem bne_of_class (P : Char → Bool) (c x : Char) (h : P c = true)
    (hx : P x = false) : (c != x) = true := by
  refine bne_iff_ne.mpr ?_
  rintro rfl
  rw [h] at hx
  cases hx

theorem hostChar_authChar (c : Char) (h : hostChar c = true) : authChar c = true := by
  unfold hostChar at h
  simp only [Bool.and_eq_true] at h
  exact h.1.1.1.1

theorem digit_authChar (c : Char) (h : c.isDigit = true) : authChar c = true := by
  unfold authChar
  rw [bne_of_class Char.isDigit c '/' h (by decide),
    bne_of_class Char.isDigit c '?' h (by decide),
    bne_of_class Char.isDigit c '#' h (by decide)]
  rfl

/-- Re-parsing the scheme part of a serialization. -/
theorem parseScheme_round (b rest : List Char) (hb : b ≠ [])
    (hball : ∀ c ∈ b, schemeChar c = true) :
    parseScheme (b ++ ':' :: '/' :: '/' :: rest) = some (b, rest) := by
  unfold parseScheme
  have hall : ∀ c ∈ b, (c != ':') = true := fun c hc =>
    bne_of_class schemeChar c ':' (hball c hc) (by decide)
  rw [List.takeWhile_append_of_pos hall, List.dropWhile_append_of_pos hall]
  rw [List.takeWhile_cons_of_neg (by decide), List.dropWhile_cons_of_neg (by decide)]
  simp only [List.append_nil]
  rw [if_pos ⟨hb, List.all_eq_true.mpr hball⟩]

theorem takeWhile_all (p : Char → Bool) (l : List Char) (h : ∀ c ∈ l, p c = true) :
    l.takeWhile p = l := by
  induction l with
  | nil => rfl
  | cons c cs ih =>
    rw [List.takeWhile_cons_of_pos (h c (List.mem_cons_self _ _))]
    rw [ih (fun x hx => h x (List.mem_cons_of_mem _ hx))]

theorem dropWhile_all (p : Char → Bool) (l : List Char) (h : ∀ c ∈ l, p c = true) :
    l.dropWhile p = [] := by
  induction l with
  | nil => rfl
  | cons c cs ih =>
    rw [List.dropWhile_cons_of_pos (h c (List.mem_cons_self _ _))]
    exact ih (fun x hx => h x (List.mem_cons_of_mem _ hx))

/-- Re-parsing the authority part of a serialization. -/
theorem parseAuth_round (host pcs rest : List Char) (hh : host ≠ [])
    (hhall : ∀ c ∈ host, hostChar c = true)
    (hd : ∀ c ∈ pcs, c.isDigit = true)
    (hshape : pcs.length ≤ 1 ∨ pcs.head? ≠ some '0')
    (hrest : rest.head? = some '/') :
    parseAuth (host ++ (if pcs = [] then [] else ':' :: pcs) ++ rest) =
      some (host, pcs, rest) := by
  have hauth : ∀ c ∈ host, authChar c = true := fun c hc => hostChar_authChar c (hhall c hc)
  have hcolon : ∀ c ∈ host, (c != ':') = true := fun c hc =>
    bne_of_class hostChar c ':' (hhall c hc) (by decide)
  obtain ⟨rtl, hrtl⟩ : ∃ t, rest = '/' :: t := by
    cases rest with
    | nil => cases hrest
    | cons r ts => exact ⟨ts, by cases hrest; rfl⟩
  subst hrtl
  unfold parseAuth
  by_cases hpn : pcs = []
  · subst hpn
    rw [if_pos rfl, List.append_nil]
    rw [List.takeWhile_append_of_pos hauth, List.dropWhile_append_of_pos hauth]
    rw [List.takeWhile_cons_of_neg (by decide), List.dropWhile_cons_of_neg (by decide)]
    simp only [List.append_nil]
    rw [takeWhile_all _ host hcolon, dropWhile_all _ host hcolon]
    rw [if_neg (by
      rintro (hc | hc)
      · exact hh hc
      · exact hc (List.all_eq_true.mpr hhall))]
  · rw [if_neg hpn, List.append_assoc, List.cons_append]
    rw [List.takeWhile_append_of_pos hauth, List.dropWhile_append_of_pos hauth]
    rw [List.takeWhile_cons_of_pos (by decide), List.dropWhile_cons_of_pos (by decide)]
    have hpauth : ∀ c ∈ pcs, authChar c = true := fun c hc => digit_authChar c (hd c hc)
    rw [List.takeWhile_append_of_pos hpauth, List.dropWhile_append_of_pos hpauth]
    rw [List.takeWhile_cons_of_neg (by decide), List.dropWhile_cons_of_neg (by decide)]
    simp only [List.append_nil]
    rw [List.takeWhile_append_of_pos hcolon, List.dropWhile_append_of_pos hcolon]
    rw [List.takeWhile_cons_of_neg (by decide), List.dropWhile_cons_of_neg (by decide)]
    simp only [List.append_nil]
    rw [if_neg (by
      rintro (hc | hc)
      · exact hh hc
      · exact hc (List.all_eq_true.mpr hhall))]
    rw [if_pos ⟨List.all_eq_true.mpr hd, hshape⟩]

/-- Re-parsing the path part of a serialization. -/
theorem parsePath_round (path qp : List Char) (hhead : path.head? = some '/')
    (hall : ∀ c ∈ path, pathChar c = true)
    (hqp : qp = [] ∨ qp.head? = some '?') :
    parsePath (path ++ qp) = some (path, qp) := by
  obtain ⟨ptl, hptl⟩ : ∃ t, path = '/' :: t := by
    cases path with
    | nil => cases hhead
    | cons r ts => exact ⟨ts, by cases hhead; rfl⟩
  subst hptl
  rw [List.cons_append]
  unfold parsePath
  simp only
  rw [← List.cons_append]
  rw [List.takeWhile_append_of_pos hall, List.dropWhile_append_of_pos hall]
  rcases hqp with hqp | hqp
  · subst hqp
    simp
  · obtain ⟨qtl, hqtl⟩ : ∃ t, qp = '?' :: t := by
      cases qp with
      | nil => cases hqp
      | cons r ts => exact ⟨ts, by cases hqp; rfl⟩
    subst hqtl
    rw [List.takeWhile_cons_of_neg (by decide), List.dropWhile_cons_of_neg (by decide)]
    simp only [List.append_nil]
    simp

/-- Membership in a join comes from the separator or a piece. -/
theorem joinSep_mem (sep : Char) (ps : List (List Char)) (c : Char)
    (h : c ∈ joinSep sep ps) : c = sep ∨ ∃ p ∈ ps, c ∈ p := by
  induction ps with
  | nil => cases h
  | cons p qs ih =>
    cases qs with
    | nil =>
      right
      exact ⟨p, List.mem_cons_self _ _, h⟩
    | cons q qs2 =>
      have hj : joinSep sep (p :: q :: qs2) = p ++ sep :: joinSep sep (q :: qs2) := rfl
      rw [hj] at h
      rcases List.mem_append.mp h with h2 | h2
      · exact Or.inr ⟨p, List.mem_cons_self _ _, h2⟩
      · rcases List.mem_cons.mp h2 with h3 | h3
        · exact Or.inl h3
        · rcases ih h3 with h4 | ⟨p2, hp2, hc2⟩
          · exact Or.inl h4
          · exact Or.inr ⟨p2, List.mem_cons_of_mem _ hp2, hc2⟩

/-- All characters of a serialized well-formed query are query
characters. -/
theorem serializeQuery_chars (q : List (String × String))
    (h : ∀ kv ∈ q, EntryWF kv) :
    ∀ c ∈ joinSep '&' (q.map entryPiece), queryChar c = true := by
  intro c hc
  rcases joinSep_mem '&' _ c hc with h2 | ⟨p, hp, hcp⟩
  · subst h2
    decide
  · rcases List.mem_map.mp hp with ⟨kv, hkv, hkp⟩
    subst hkp
    rcases List.mem_append.mp hcp with h3 | h3
    · exact (h kv hkv).2.2.1 c h3
    · rcases List.mem_cons.mp h3 with h4 | h4
      · subst h4
        decide
      · exact (h kv hkv).2.2.2.2 c h4

/-- Re-parsing the query part of a serialization. -/
theorem parseQueryPart_round (q : List (String × String))
    (h : ∀ kv ∈ q, EntryWF kv) :
    parseQueryPart (serializeQuery q) = some (q, []) := by
  cases hq : q with
  | nil => rfl
  | cons kv rest =>
    unfold serializeQuery
    simp only
    unfold parseQueryPart
    simp only
    have hchars : ∀ c ∈ joinSep '&' ((kv :: rest).map entryPiece), queryChar c = true := by
      rw [← hq]
      subst hq
      exact serializeQuery_chars _ h
    have hnohash : ∀ c ∈ joinSep '&' ((kv :: rest).map entryPiece), (c != '#') = true :=
      fun c hc => bne_of_class queryChar c '#' (hchars c hc) (by decide)
    rw [takeWhile_all _ _ hnohash, dropWhile_all _ _ hnohash]
    rw [if_pos (List.all_eq_true.mpr hchars)]
    rw [parseQuery_join (kv :: rest) (hq ▸ h) (by simp)]

/-- The parser reads back every well-formed URL object the serializer
writes (for the fragment-free objects normalization produces). -/
theorem parse_serialize (u : URLObj) (hwf : URLWF u) (hh : u.hash = String.mk []) :
    parseChars (serializeChars u) = some u := by
  obtain ⟨b, hproto, hbne, hbfacts⟩ := hwf.scheme_shape
  have hblow : b.map Char.toLower = b := by
    rw [List.map_congr_left (fun c hc => (hbfacts c hc).2)]
    exact List.map_id' b
  have hhostlow : u.hostname.data.map Char.toLower = u.hostname.data := by
    rw [List.map_congr_left (fun c hc => (hwf.host_chars c hc).2)]
    exact List.map_id' u.hostname.data
  have hport : (if u.port = String.mk [] then ([] : List Char) else ':' :: u.port.data) =
      (if u.port.data = [] then [] else ':' :: u.port.data) := by
    by_cases hp : u.port.data = []
    · rw [if_pos hp, if_pos (by cases hu : u.port; simp_all)]
    · rw [if_neg hp, if_neg (fun hc => hp (congrArg String.data hc))]
  have hserial : serializeChars u =
      b ++ ':' :: '/' :: '/' ::
        (u.hostname.data ++
          (if u.port.data = [] then [] else ':' :: u.port.data) ++
          (u.pathname.data ++ serializeQuery u.searchParams)) := by
    unfold serializeChars
    rw [if_pos hh, hport, hproto]
    simp [List.append_assoc]
  rw [hserial]
  have hresthead : (u.pathname.data ++ serializeQuery u.searchParams).head? = some '/' := by
    have hph := hwf.path_head
    cases hpp : u.pathname.data with
    | nil =>
      rw [hpp] at hph
      cases hph
    | cons c cs =>
      rw [hpp] at hph
      simp only [List.cons_append, List.head?_cons, Option.some.injEq] at hph ⊢
      exact hph
  have hqshape : serializeQuery u.searchParams = [] ∨
      (serializeQuery u.searchParams).head? = some '?' := by
    cases u.searchParams with
    | nil => exact Or.inl rfl
    | cons kv rest => exact Or.inr rfl
  unfold parseChars
  rw [parseScheme_round b _ hbne (fun c hc => (hbfacts c hc).1), Option.some_bind]
  rw [parseAuth_round u.hostname.data u.port.data _ hwf.host_ne
    (fun c hc => (hwf.host_chars c hc).1) hwf.port_digits hwf.port_shape hresthead,
    Option.some_bind]
  rw [parsePath_round _ _ hwf.path_head hwf.path_chars hqshape, Option.some_bind]
  rw [parseQueryPart_round _ hwf.query_wf, Option.some_bind]
  have hdrop : u.protocol.data.dropLast = b := by
    rw [hproto]
    simp
  have hdef : isDefaultPort b u.port.data = false := by
    rw [← hdrop]
    exact hwf.port_nondefault
  simp only [parseHashPart, Option.map_some']
  rw [hblow, hhostlow, if_neg (by rw [hdef]; exact Bool.false_ne_true)]
  rw [← hproto, ← hh]

/-- The hash of a normalized object is empty. -/
theorem normObj_hash (u : URLObj) : (normObj u).hash = String.mk [] := rfl

theorem normObj_protocol (u : URLObj) :
    (normObj u).protocol = String.mk (u.protocol.data.map Char.toLower) := by
  simp only [normObj]
  split <;> split <;> split <;> rfl

theorem normObj_hostname (u : URLObj) :
    (normObj u).hostname = String.mk (u.hostname.data.map Char.toLower) := by
  simp only [normObj]
  split <;> split <;> split <;> rfl

theorem normObj_port (u : URLObj) :
    (normObj u).port =
      if (String.mk (u.protocol.data.map Char.toLower) = String.mk [ 'h', 't', 't', 'p', ':'] ∧
            u.port = String.mk [ '8', '0']) ∨
         (String.mk (u.protocol.data.map Char.toLower) =
            String.mk [ 'h', 't', 't', 'p', 's', ':'] ∧
            u.port = String.mk [ '4', '4', '3'])
      then String.mk [] else u.port := by
  simp only [normObj]
  split <;> split <;> split <;> rfl

theorem normObj_pathname (u : URLObj) :
    (normObj u).pathname =
      if u.pathname ≠ String.mk [ '/'] ∧ u.pathname.data.getLast? = some '/'
      then String.mk u.pathname.data.dropLast else u.pathname := by
  simp only [normObj]
  split <;> split <;> split <;> rfl

theorem normObj_searchParams (u : URLObj) :
    (normObj u).searchParams =
      if u.searchParams ≠ [] then sortEntries u.searchParams else u.searchParams := by
  simp only [normObj]
  split <;> split <;> split <;> rfl

/-- Two URL objects with equal fields are equal. -/
theorem urlObj_ext (a b : URLObj) (h1 : a.protocol = b.protocol)
    (h2 : a.hostname = b.hostname) (h3 : a.port = b.port)
    (h4 : a.pathname = b.pathname) (h5 : a.searchParams = b.searchParams)
    (h6 : a.hash = b.hash) : a = b := by
  cases a
  cases b
  simp_all

/-- A well-formed protocol is already lowercase. -/
theorem wf_protocol_low (u : URLObj) (hwf : URLWF u) :
    String.mk (u.protocol.data.map Char.toLower) = u.protocol := by
  obtain ⟨b, hproto, hbne, hbfacts⟩ := hwf.scheme_shape
  rw [hproto, List.map_append,
    List.map_congr_left (fun c hc => (hbfacts c hc).2), List.map_id' b,
    show List.map Char.toLower [ ':'] = [ ':'] by decide, ← hproto]

/-- A well-formed hostname is already lowercase. -/
theorem wf_host_low (u : URLObj) (hwf : URLWF u) :
    String.mk (u.hostname.data.map Char.toLower) = u.hostname := by
  rw [List.map_congr_left (fun c hc => (hwf.host_chars c hc).2), List.map_id' u.hostname.data]

/-- A well-formed object never carries a default port, in the form the
normalization step tests. -/
theorem wf_port_cond_false (u : URLObj) (hwf : URLWF u) :
    ¬ ((u.protocol = String.mk [ 'h', 't', 't', 'p', ':'] ∧
        u.port = String.mk [ '8', '0']) ∨
      (u.protocol = String.mk [ 'h', 't', 't', 'p', 's', ':'] ∧
        u.port = String.mk [ '4', '4', '3'])) := by
  obtain ⟨b, hproto, hbne, hbfacts⟩ := hwf.scheme_shape
  have hdrop : u.protocol.data.dropLast = b := by
    rw [hproto]
    simp
  have hnd := hwf.port_nondefault
  rw [hdrop] at hnd
  rintro (⟨hp, hq⟩ | ⟨hp, hq⟩)
  · have hb : b = [ 'h', 't', 't', 'p'] := by
      have := congrArg String.data hp
      rw [hproto] at this
      exact List.append_cancel_right this
    have hq2 : u.port.data = [ '8', '0'] := congrArg String.data hq
    rw [hb, hq2] at hnd
    cases hnd
  · have hb : b = [ 'h', 't', 't', 'p', 's'] := by
      have := congrArg String.data hp
      rw [hproto] at this
      exact List.append_cancel_right this
    have hq2 : u.port.data = [ '4', '4', '3'] := congrArg String.data hq
    rw [hb, hq2] at hnd
    cases hnd

/-- On a well-formed URL object the normalization steps reduce to the
path strip, the query sort and the fragment clear: the lowercasing is the
identity and the default port is already gone. -/
theorem normObj_wf_shape (u : URLObj) (hwf : URLWF u) :
    normObj u = { u with
      pathname := if u.pathname ≠ String.mk [ '/'] ∧ u.pathname.data.getLast? = some '/'
        then String.mk u.pathname.data.dropLast else u.pathname,
      searchParams := if u.searchParams ≠ [] then sortEntries u.searchParams
        else u.searchParams,
      hash := String.mk [] } := by
  have heta : normObj u = URLObj.mk (normObj u).protocol (normObj u).hostname
      (normObj u).port (normObj u).pathname (normObj u).searchParams (normObj u).hash := rfl
  rw [heta, normObj_protocol, normObj_hostname, normObj_port, normObj_pathname,
    normObj_searchParams, normObj_hash, wf_protocol_low u hwf, wf_host_low u hwf,
    if_neg (wf_port_cond_false u hwf)]

/-- Normalization preserves well-formedness. -/
theorem normObj_WF (u : URLObj) (hwf : URLWF u) : URLWF (normObj u) := by
  rw [normObj_wf_shape u hwf]
  constructor
  · exact hwf.scheme_shape
  · exact hwf.host_ne
  · exact hwf.host_chars
  · exact hwf.port_digits
  · exact hwf.port_shape
  · exact hwf.port_nondefault
  · show (if u.pathname ≠ String.mk [ '/'] ∧ u.pathname.data.getLast? = some '/'
      then String.mk u.pathname.data.dropLast else u.pathname).data.head? = some '/'
    split
    · next hc =>
      have hph := hwf.path_head
      cases hpp : u.pathname.data with
      | nil => rw [hpp] at hph; cases hph
      | cons c cs =>
        rw [hpp] at hph
        simp only [List.head?_cons, Option.some.injEq] at hph
        subst hph
        cases cs with
        | nil =>
          exfalso
          apply hc.1
          cases hu : u.pathname
          simp_all
        | cons d ds =>
          show ( '/' :: d :: ds).dropLast.head? = some '/'
          rw [List.dropLast_cons₂]
          rfl
    · exact hwf.path_head
  · show ∀ c ∈ (if u.pathname ≠ String.mk [ '/'] ∧ u.pathname.data.getLast? = some '/'
      then String.mk u.pathname.data.dropLast else u.pathname).data, pathChar c = true
    split
    · intro c hc
      exact hwf.path_chars c (List.dropLast_subset _ hc)
    · exact hwf.path_chars
  · show ∀ kv ∈ (if u.searchParams ≠ [] then sortEntries u.searchParams
      else u.searchParams), EntryWF kv
    split
    · intro kv hkv
      exact hwf.query_wf kv (sortEntries_subset _ kv hkv)
    · exact hwf.query_wf

/-- Normalization is idempotent on well-formed objects whose path does
not end in a double slash — the path may end in anything else, also a
single slash — with the two-slash root as the harmless exception. -/
theorem normObj_idem (u : URLObj) (hwf : URLWF u)
    (hnd : u.pathname.data.getLast? ≠ some '/' ∨
      u.pathname.data.dropLast.getLast? ≠ some '/' ∨
      u.pathname.data.dropLast = [ '/']) :
    normObj (normObj u) = normObj u := by
  have h2 := normObj_WF u hwf
  have e1 : (normObj (normObj u)).protocol = (normObj u).protocol := by
    rw [normObj_protocol (normObj u), wf_protocol_low _ h2]
  have e2 : (normObj (normObj u)).hostname = (normObj u).hostname := by
    rw [normObj_hostname (normObj u), wf_host_low _ h2]
  have e3 : (normObj (normObj u)).port = (normObj u).port := by
    rw [normObj_port (normObj u), wf_protocol_low _ h2,
      if_neg (wf_port_cond_false _ h2)]
  have e4 : (normObj (normObj u)).pathname = (normObj u).pathname := by
    rw [normObj_pathname (normObj u), normObj_pathname u]
    by_cases hc : u.pathname ≠ String.mk [ '/'] ∧ u.pathname.data.getLast? = some '/'
    · rw [if_pos hc, if_neg]
      rintro ⟨hne, hlast⟩
      rcases hnd with hnd | hnd | hnd
      · exact hnd hc.2
      · exact hnd hlast
      · exact hne (by rw [hnd])
    · rw [if_neg hc, if_neg hc]
  have e5 : (normObj (normObj u)).searchParams = (normObj u).searchParams := by
    rw [normObj_searchParams (normObj u), normObj_searchParams u]
    by_cases hq : u.searchParams = []
    · rw [if_neg (not_not_intro hq)]
      rw [if_neg (not_not_intro hq)]
    · rw [if_pos hq]
      by_cases hq2 : sortEntries u.searchParams = []
      · rw [if_neg (not_not_intro hq2)]
      · rw [if_pos hq2, sortEntries_idem]
  have e6 : (normObj (normObj u)).hash = (normObj u).hash := by
    rw [normObj_hash (normObj u), normObj_hash u]
  exact urlObj_ext _ _ e1 e2 e3 e4 e5 e6

/-- C7 counterexample: normalize is not idempotent as claimed — on the
accepted URL http://example.com/a// the normalizer strips a single
trailing slash, so a second pass strips another one and yields a
different string. -/
theorem normalizeUrl_not_idempotent :
    normalizeUrl "http://example.com/a//" = Except.ok "http://example.com/a/" ∧
    normalizeUrl "http://example.com/a/" = Except.ok "http://example.com/a" ∧
    ( "http://example.com/a/" : String) ≠ "http://example.com/a" :=
  ⟨by rfl, by rfl, by decide⟩

/-- C7 (amended): normalize is idempotent on every accepted URL whose
parsed path does not end in a double slash — either its last character
is not a slash, or the character before the last is not a slash — with
the two-slash root path as a harmless exception that is also
idempotent: one normalization pass yields the serialized normalized
object, and a second pass returns it unchanged. -/
theorem normalizeUrl_idem (s : String) (u : URLObj)
    (hp : parseChars s.data = some u)
    (hnd : u.pathname.data.getLast? ≠ some '/' ∨
      u.pathname.data.dropLast.getLast? ≠ some '/' ∨
      u.pathname.data.dropLast = [ '/']) :
    normalizeUrl s = Except.ok (String.mk (serializeChars (normObj u))) ∧
    normalizeUrl (String.mk (serializeChars (normObj u))) =
      Except.ok (String.mk (serializeChars (normObj u))) := by
  have hwf := parse_WF s.data u hp
  constructor
  · unfold normalizeUrl
    rw [hp]
  · unfold normalizeUrl
    rw [show (String.mk (serializeChars (normObj u))).data =
      serializeChars (normObj u) from rfl]
    rw [parse_serialize (normObj u) (normObj_WF u hwf) (normObj_hash u)]
    simp only
    rw [normObj_idem u hwf hnd]

/-- The parse of the specification's normalization example. -/
def c7url : URLObj :=
  { protocol := "https:", hostname := "example.com", port := String.mk [],
    pathname := "/Page", searchParams := [("b", "2"), ("a", "1")], hash := "x" }

/-- The parse of a URL whose last path segment is a single character. -/
def c7url2 : URLObj :=
  { protocol := "http:", hostname := "example.com", port := String.mk [],
    pathname := "/a/b", searchParams := [], hash := String.mk [] }

/-- The parse of a URL with a single trailing slash. -/
def c7url3 : URLObj :=
  { protocol := "http:", hostname := "example.com", port := String.mk [],
    pathname := "/a/", searchParams := [], hash := String.mk [] }

/-- C7 witness: idempotence on the specification's own example URL, on a
URL whose last path segment is one character, and on a URL with a single
trailing slash. -/
theorem normalizeUrl_idem_witness :
    (normalizeUrl "https://Example.COM/Page?b=2&a=1#x" =
       Except.ok (String.mk (serializeChars (normObj c7url))) ∧
     normalizeUrl (String.mk (serializeChars (normObj c7url))) =
       Except.ok (String.mk (serializeChars (normObj c7url)))) ∧
    normalizeUrl (String.mk (serializeChars (normObj c7url2))) =
      Except.ok (String.mk (serializeChars (normObj c7url2))) ∧
    normalizeUrl (String.mk (serializeChars (normObj c7url3))) =
      Except.ok (String.mk (serializeChars (normObj c7url3))) :=
  ⟨normalizeUrl_idem "https://Example.COM/Page?b=2&a=1#x" c7url (by rfl) (by decide),
   (normalizeUrl_idem "http://example.com/a/b" c7url2 (by rfl) (by decide)).2,
   (normalizeUrl_idem "http://example.com/a/" c7url3 (by rfl) (by decide)).2⟩

end DeepCrawler
